import Mathlib

/-!
Verification development for the backtrader line-iterator engine
(`src/backtrader/lineiterator.py`, `src/backtrader/feeds/vchartcsv.py`).

The execution engine is embedded shallowly:

* a `Line` is an append-only buffer of slots; a slot holds `none` while it is
  allocated but never written (the source allocates slots carrying `NaN`);
* a `Series` is the buffer contents of one `LineSeries` (one `Line` per
  declared line of the node);
* a `Store` maps node ids to series; the external data feed lives at the
  reserved id `fid` and is the clock of every node in the modelled graphs;
* a `GNode` is a `LineIterator`: its id, its `_minperiod`, the pointwise
  per-line computation its overridden `next`/`once` callbacks implement,
  its `_indicators` and its `_observers`.

Cursor-relative indexing of the source (`line[0]` is the current bar,
negative offsets read history) is eliminated in favour of absolute indexing,
which is sound because the verified statements compare final buffer
contents; `home()` moves cursors only and therefore leaves the store
unchanged.  The `_clockindicator` machinery is absent from the execution
model: `MetaLineIterator.dopostinit` raises `NameError` (line 102 references
the unbound name `self`) before any node with `_clock ∈ _indicators`
finishes construction, so every constructible node has
`_clockindicator == False`; `dopostinit` is modelled separately below.
-/

namespace Backtrader

/-- Numeric value stored in a line slot. -/
abbrev Val := Int

/-- Buffer contents of one `Line`: slot `j` is bar `j` (absolute index);
`none` is an allocated, never-written slot. -/
abbrev Line := List (Option Val)

/-- Buffer contents of one `LineSeries`: one `Line` per declared line. -/
abbrev Series := List Line

/-- Global buffer store, one `Series` per node id. -/
abbrev Store := Nat → Series

/-- Reserved id of the external data feed; the feed is the clock
(`self._clock`) of every node in the modelled graphs. -/
def fid : Nat := 0

/-- Replace the series stored at id `i`. -/
def upd (s : Store) (i : Nat) (v : Series) : Store :=
  fun j => if j = i then v else s j

/-- Length of a `LineSeries` (`len(series)` / `series.buflen()`): the length
of its first (reference) line.  `len` and `buflen` coincide here because
cursors are eliminated. -/
def seriesLen (ser : Series) : Nat :=
  match ser with
  | [] => 0
  | l :: _ => l.length

/-- `LineSeries.forward()` (step mode): append one unwritten slot to every
line. -/
def seriesForward (ser : Series) : Series :=
  ser.map (fun l => l ++ [none])

/-- `LineSeries.forward(size=n)` (batch pre-sizing): append `n` unwritten
slots to every line. -/
def seriesForwardN (n : Nat) (ser : Series) : Series :=
  ser.map (fun l => l ++ List.replicate n none)

/-- Write value `vs[p]` into slot `j` of line `p`, for every line of the
series.  Missing values (`p ≥ vs.length`) leave the line unchanged, matching
the default `pass` callbacks which write nothing. -/
def seriesWrite (j : Nat) : List Val → Series → Series
  | [], ser => ser
  | _, [] => []
  | v :: vs, l :: ls => l.set j (some v) :: seriesWrite j vs ls

/-- Truncate every line of a series to its first `k` slots. -/
def truncS (k : Nat) (ser : Series) : Series :=
  ser.map (List.take k)

/-- The three lifecycle callbacks a `_next` call can dispatch. -/
inductive Callback where
  | prenext
  | nextstart
  | next
  deriving DecidableEq, Repr

/-- Dispatch decision of `LineIterator._next` (source lines 163-169):
`next` when the clock length exceeds `_minperiod`, `nextstart` when it
equals it, `prenext` while below it. -/
def dispatch (clock_len minperiod : Nat) : Callback :=
  if clock_len > minperiod then .next
  else if clock_len = minperiod then .nextstart
  else .prenext

mutual
/-- A constructed `LineIterator`: node id, `_minperiod`, the pointwise
computation of each of its output lines (a concrete node's `next` writes
`fs[p] (bar) (store)` into line `p` at the current bar; the source default
callbacks are `pass`, i.e. `fs = []`), its `_indicators` and its
`_observers`. -/
inductive GNode where
  | mk (gid : Nat) (minperiod : Nat) (fs : List (Nat → Store → Val))
       (indicators : GForest) (observers : GForest)

/-- A registration-ordered list of child nodes. -/
inductive GForest where
  | nil
  | cons (g : GNode) (gs : GForest)
end

/-- Node id. -/
def GNode.gid : GNode → Nat
  | .mk i _ _ _ _ => i

/-- Node `_minperiod`. -/
def GNode.minp : GNode → Nat
  | .mk _ m _ _ _ => m

/-- Effect of a concrete node's `next()` at clock length `cl`: compute every
line's value at the current bar index `cl - 1` from the pre-write store,
then write all lines. -/
def nextWrite (i : Nat) (fs : List (Nat → Store → Val)) (cl : Nat)
    (s : Store) : Store :=
  upd s i (seriesWrite (cl - 1) (fs.map (fun f => f (cl - 1) s)) (s i))

/-- Store effect of the dispatched callback: `prenext` is a no-op (source
line 212-213), `nextstart` delegates to `next` (source lines 215-217),
`next` performs the node's pointwise computation (overriding the no-op
default of line 219-220). -/
def applyCb : Callback → Nat → List (Nat → Store → Val) → Nat → Store → Store
  | .prenext, _, _, _, s => s
  | .nextstart, i, fs, cl, s => nextWrite i fs cl s
  | .next, i, fs, cl, s => nextWrite i fs cl s

mutual
/-- Store effect of `LineIterator._next` (source lines 150-172) for a node
with `_clockindicator == False`: read the clock length, `forward` own
storage if the clock moved, run every indicator's `_next`, deliver
notifications (a no-op), dispatch exactly one lifecycle callback, then run
every observer's `_next`. -/
def GNode.nextS : GNode → Store → Store
  | .mk i mp fs inds obs, s =>
    let clock_len := seriesLen (s fid)
    let s1 := if clock_len ≠ seriesLen (s i) then upd s i (seriesForward (s i)) else s
    let s2 := GForest.nextS inds s1
    let s3 := applyCb (dispatch clock_len mp) i fs clock_len s2
    GForest.nextS obs s3

/-- `_next` on each node of a forest, in registration order. -/
def GForest.nextS : GForest → Store → Store
  | .nil, s => s
  | .cons g gs, s => GForest.nextS gs (g.nextS s)
end

/-- Loop body of a concrete node's `once(start, stop)`: iterate `cnt` bar
indices starting at `j`, writing every line at each index from the store as
it stands at that iteration (`for j in range(start, stop)`). -/
def onceLoop (i : Nat) (fs : List (Nat → Store → Val)) :
    Nat → Nat → Store → Store
  | 0, _, s => s
  | cnt + 1, j, s =>
    onceLoop i fs cnt (j + 1)
      (upd s i (seriesWrite j (fs.map (fun f => f j s)) (s i)))

/-- A concrete node's `once(start, stop)`: write every line at every
absolute index `j ∈ [start, stop)`, ascending. -/
def onceRange (i : Nat) (fs : List (Nat → Store → Val))
    (start stop : Nat) (s : Store) : Store :=
  onceLoop i fs (stop - start) start s

/-- Pre-sizing of observers in `_once` (source lines 183-184):
`observer.forward(size=self.buflen())`, evaluated per observer on the store
as it stands. -/
def GForest.obsForward : GForest → Nat → Store → Store
  | .nil, _, s => s
  | .cons o os, i, s =>
    GForest.obsForward os i (upd s o.gid (seriesForwardN (seriesLen (s i)) (s o.gid)))

mutual
/-- Store effect of `LineIterator._once` (source lines 174-204) for a node
with `_clockindicator == False`: pre-size own storage to the clock's
`buflen`, run every indicator's `_once`, pre-size (never compute) every
observer, `home()` everything (cursor-only, hence invisible here), run the
no-op `preonce(0, _minperiod - 1)`, run `once(_minperiod - 1, buflen)`, and
resolve line bindings (the modelled graphs declare none; bindings are
modelled separately for `bindlines`). -/
def GNode.onceS : GNode → Store → Store
  | .mk i mp fs inds obs, s =>
    let s1 := upd s i (seriesForwardN (seriesLen (s fid)) (s i))
    let s2 := GForest.onceS inds s1
    let s3 := GForest.obsForward obs i s2
    onceRange i fs (mp - 1) (seriesLen (s3 i)) s3

/-- `_once` on each node of a forest, in registration order. -/
def GForest.onceS : GForest → Store → Store
  | .nil, s => s
  | .cons g gs, s => GForest.onceS gs (g.onceS s)
end

/-- The step-mode driver makes one more clock bar available: append one
written slot to every feed line. -/
def pushFeed (s : Store) (b : Val) : Store :=
  upd s fid ((s fid).map (fun l => l ++ [some b]))

/-- Step-mode run: for each bar of the stream, push it into the feed and
call `_next` once on the root (`advanceOne` called once per available clock
bar). -/
def stepRun (g : GNode) : List Val → Store → Store
  | [], s => s
  | b :: bs, s => stepRun g bs (g.nextS (pushFeed s b))

/-- The batch-mode driver loads the whole stream into the feed up front. -/
def loadFeed (s : Store) (bars : List Val) : Store :=
  upd s fid ((s fid).map (fun l => l ++ bars.map some))

/-- Batch-mode run: load the stream, call `_once` exactly once on the root. -/
def batchRun (g : GNode) (bars : List Val) (s : Store) : Store :=
  g.onceS (loadFeed s bars)

mutual
/-- All node ids of a node's subtree (the node, its indicators, its
observers, recursively). -/
def GNode.allIds : GNode → List Nat
  | .mk i _ _ inds obs => i :: (GForest.allIds inds ++ GForest.allIds obs)

/-- All node ids of a forest. -/
def GForest.allIds : GForest → List Nat
  | .nil => []
  | .cons g gs => g.allIds ++ GForest.allIds gs
end

mutual
/-- Ids of the computational (non-observer) part of a subtree: the node and
its indicators, recursively, excluding every observer subtree. -/
def GNode.mainIds : GNode → List Nat
  | .mk i _ _ inds _ => i :: GForest.mainIds inds

/-- Ids of the computational part of a forest. -/
def GForest.mainIds : GForest → List Nat
  | .nil => []
  | .cons g gs => g.mainIds ++ GForest.mainIds gs
end

/-- A computation `f` reads only the first `j + 1` slots of the buffers
listed in `S` when computing bar `j`: the cursor-relative reads
`data[k]`, `k ≤ 0`, of a concrete node's callbacks. -/
def DependsOn (f : Nat → Store → Val) (S : List Nat) : Prop :=
  ∀ j s t, (∀ i ∈ S, truncS (j + 1) (s i) = truncS (j + 1) (t i)) → f j s = f j t

mutual
/-- Every computational node of the subtree reads only the feed and its own
computational subtree, and only backwards in time: the dataflow discipline
of the engine (a node's inputs are its datas and its registered
indicators, read at the current bar or earlier). -/
def GNode.HDep : GNode → Prop
  | .mk i mp fs inds obs =>
    (∀ f ∈ fs, DependsOn f (fid :: GNode.mainIds (.mk i mp fs inds obs))) ∧
      GForest.HDep inds

/-- `GNode.HDep` on each node of a forest. -/
def GForest.HDep : GForest → Prop
  | .nil => True
  | .cons g gs => g.HDep ∧ GForest.HDep gs
end

/-- Well-formed graph: node ids are pairwise distinct and distinct from the
feed id. -/
def GNode.WF (g : GNode) : Prop :=
  g.allIds.Nodup ∧ fid ∉ g.allIds

/-! ### Event-trace semantics

The same `_next` and `_once` methods, instrumented: `nextTr`/`onceTr`
return the ordered list of scheduler events a call performs, threading the
intermediate stores through `nextS`/`onceS`. -/

/-- Observable scheduler events of one run, in execution order. -/
inductive Event where
  | forward (i : Nat)
  | forwardN (i : Nat) (size : Nat)
  | notify (i : Nat)
  | callback (i : Nat) (cb : Callback)
  | home (i : Nat)
  | preonce (i : Nat) (start stop : Nat)
  | once (i : Nat) (start stop : Nat)
  | oncebinding (i : Nat) (line : Nat)
  deriving DecidableEq, Repr

mutual
/-- Event trace of `LineIterator._next` (source lines 150-172): the optional
own `forward`, the indicators' full traces in order, the notification
delivery and the single dispatched callback, then the observers' full
traces. -/
def GNode.nextTr : GNode → Store → List Event
  | .mk i mp fs inds obs, s =>
    let clock_len := seriesLen (s fid)
    let s1 := if clock_len ≠ seriesLen (s i) then upd s i (seriesForward (s i)) else s
    (if clock_len ≠ seriesLen (s i) then [Event.forward i] else []) ++
      GForest.nextTr inds s1 ++
      [Event.notify i, Event.callback i (dispatch clock_len mp)] ++
      GForest.nextTr obs
        (applyCb (dispatch clock_len mp) i fs clock_len (GForest.nextS inds s1))

/-- Event trace of `_next` over a forest, in registration order. -/
def GForest.nextTr : GForest → Store → List Event
  | .nil, _ => []
  | .cons g gs, s => g.nextTr s ++ GForest.nextTr gs (g.nextS s)
end

/-- Event trace of the observer pre-sizing loop of `_once` (source lines
183-184). -/
def GForest.obsFwdTr : GForest → Nat → Store → List Event
  | .nil, _, _ => []
  | .cons o os, i, s =>
    Event.forwardN o.gid (seriesLen (s i)) ::
      GForest.obsFwdTr os i (upd s o.gid (seriesForwardN (seriesLen (s i)) (s o.gid)))

/-- Top-level ids of a forest: the registered nodes themselves, whose
`home()` is invoked by `_once` (source lines 192-196), without their
subtrees. -/
def GForest.topIds : GForest → List Nat
  | .nil => []
  | .cons g gs => g.gid :: GForest.topIds gs

mutual
/-- Event trace of `LineIterator._once` (source lines 174-204): own batch
pre-sizing, the indicators' full batch traces, the observer pre-sizing
loop, the `home()` rewinds (datas, indicators, observers, self), the
`preonce(0, _minperiod - 1)` and `once(_minperiod - 1, buflen)` ranges, and
one `oncebinding` per own line. -/
def GNode.onceTr : GNode → Store → List Event
  | .mk i mp fs inds obs, s =>
    let T := seriesLen (s fid)
    let s1 := upd s i (seriesForwardN T (s i))
    let s2 := GForest.onceS inds s1
    let s3 := GForest.obsForward obs i s2
    Event.forwardN i T ::
      (GForest.onceTr inds s1 ++
        GForest.obsFwdTr obs i s2 ++
        [Event.home fid] ++
        (GForest.topIds inds).map Event.home ++
        (GForest.topIds obs).map Event.home ++
        [Event.home i] ++
        [Event.preonce i 0 (mp - 1),
          Event.once i (mp - 1) (seriesLen (s3 i))] ++
        (List.range ((onceRange i fs (mp - 1) (seriesLen (s3 i)) s3 i).length)).map
          (Event.oncebinding i))

/-- Event trace of `_once` over a forest, in registration order. -/
def GForest.onceTr : GForest → Store → List Event
  | .nil, _ => []
  | .cons g gs, s => g.onceTr s ++ GForest.onceTr gs (g.onceS s)
end

/-- Events of a whole step-mode run, in order. -/
def stepRunTr (g : GNode) : List Val → Store → List Event
  | [], _ => []
  | b :: bs, s => g.nextTr (pushFeed s b) ++ stepRunTr g bs (g.nextS (pushFeed s b))

/-- Lifecycle callbacks dispatched at the root during a step run, in order. -/
def rootCallbacks (g : GNode) (bars : List Val) (s : Store) : List Callback :=
  (stepRunTr g bars s).filterMap (fun e => match e with
    | .callback i cb => if i = g.gid then some cb else none
    | _ => none)

/-! ### Construction protocol (`MetaLineIterator`, `addindicator`,
`bindlines`) -/

/-- Python-level error outcomes of the modelled fragments. -/
inductive PyErr where
  | attributeError
  | nameError
  | indexError
  deriving DecidableEq, Repr

/-- A positional constructor argument as `dopreinit` sees it: either a
`LineSeries`-like stream (carrying its `_minperiod`) or a plain parameter. -/
inductive CArg where
  | stream (minperiod : Nat)
  | plain
  deriving DecidableEq, Repr

/-- Result of a successful `dopreinit`: the `_minperiod` of the stream
chosen as `_clock`, the `_minperiod`s of the `datas`, and the node's own
computed `_minperiod`. -/
structure PreInit where
  clock : Nat
  datas : List Nat
  minperiod : Nat
  deriving DecidableEq, Repr

/-- `MetaLineIterator.dopreinit` (source lines 31-57): scan the args for
`LineSeries` instances; if none are found fall back to `[owner]` so the
node has a clock; take `datas[0]` as `_clock`; set `_minperiod` to the
maximum `_minperiod` over `datas`.  When there is no stream argument and no
owner, `datas == [None]` and line 46 evaluates `None._minperiod`, raising
`AttributeError` — the spec's `NoClockError`.  `owner` carries the owner's
`_minperiod` when an owner exists. -/
def MetaLineIterator.dopreinit (owner : Option Nat) (args : List CArg) :
    Except PyErr PreInit :=
  let streams := args.filterMap (fun a => match a with
    | .stream m => some m
    | .plain => none)
  match streams, owner with
  | [], none => .error .attributeError
  | [], some m => .ok { clock := m, datas := [m], minperiod := m }
  | s :: ss, _ => .ok { clock := s, datas := s :: ss, minperiod := (s :: ss).foldl max 0 }

/-- Order-preserving deduplication keeping first occurrences (source lines
92-93: `[x for x in _obj._indicators if x not in seen and not seen.add(x)]`). -/
def dedupFirst : List Nat → List Nat → List Nat
  | [], _ => []
  | x :: xs, seen =>
    if x ∈ seen then dedupFirst xs seen else x :: dedupFirst xs (x :: seen)

/-- `MetaLineIterator.dopostinit` (source lines 82-104) applied to the parts
it transforms: deduplicate `_indicators` keeping first occurrences, then, if
`_clock` is among them, execute line 102 — which reads the name `self`,
unbound inside this method (its parameters are `cls` and `_obj`), and
therefore raises `NameError` instead of slicing the clock off the list.
Otherwise `_clockindicator` stays `False`.  Registration with the owner
(lines 88-89) is `addindicator`, modelled below. -/
def MetaLineIterator.dopostinit (clock : Nat) (indicators : List Nat) :
    Except PyErr (Bool × List Nat) :=
  let inds := dedupFirst indicators []
  if clock ∈ inds then .error .nameError
  else .ok (false, inds)

/-- Registration state of a `LineIterator`: its `_minperiod` and the
`_minperiod`s of its `datas`, registered `_indicators` and `_observers`
(`_minperiod` is the only attribute `addindicator` reads from a child). -/
structure LIState where
  minperiod : Nat
  datas : List Nat
  indicators : List Nat
  observers : List Nat
  deriving DecidableEq, Repr

/-- Registration state right after `dopreinit`: `_indicators` and
`_observers` are empty (source lines 49-52). -/
def LIState.ofPreInit (p : PreInit) : LIState :=
  { minperiod := p.minperiod, datas := p.datas, indicators := [], observers := [] }

/-- A child to register, as `addindicator` sees it: whether
`isinstance(indicator, LineObserver)` holds, and its `_minperiod`. -/
structure Child where
  isObserver : Bool
  minperiod : Nat
  deriving DecidableEq, Repr

/-- `LineIterator.addindicator` (source lines 110-115): observers are
appended to `_observers` and leave `_minperiod` untouched; any other child
is appended to `_indicators` and raises `_minperiod` to the max. -/
def LineIterator.addindicator (st : LIState) (c : Child) : LIState :=
  if c.isObserver then { st with observers := st.observers ++ [c.minperiod] }
  else { st with indicators := st.indicators ++ [c.minperiod],
                 minperiod := max c.minperiod st.minperiod }

/-- A Python argument to `bindlines`: `None`, an `int`, or a list of ints.
Python truthiness (lines 123 and 128) makes `None`, `0` and `[]` all
falsy. -/
inductive PyArg where
  | noneV
  | intV (n : Nat)
  | listV (ns : List Nat)
  deriving DecidableEq, Repr

/-- Python truthiness of a `bindlines` argument. -/
def PyArg.falsy : PyArg → Bool
  | .noneV => true
  | .intV n => n = 0
  | .listV ns => ns.isEmpty

/-- Normalisation of the `owner` argument (source lines 123-126): falsy
values become `0`, then a non-iterable becomes a one-element list. -/
def normOwner : PyArg → List Nat
  | a =>
    if a.falsy then [0]
    else match a with
      | .noneV => [0]
      | .intV n => [n]
      | .listV ns => ns

/-- Normalisation of the `own` argument (source lines 128-131): falsy
values become `xrange(len(owner))` over the normalised owner list, then a
non-iterable becomes a one-element list. -/
def normOwn (a : PyArg) (ownerLen : Nat) : List Nat :=
  if a.falsy then List.range ownerLen
  else match a with
    | .noneV => List.range ownerLen
    | .intV n => [n]
    | .listV ns => ns

/-- Binding-relevant state of a node: how many lines it declares and the
bindings already attached, each an (own line index, owner line index)
pair. -/
structure BindNode where
  nlines : Nat
  bindings : List (Nat × Nat)
  deriving DecidableEq, Repr

/-- The binding loop of `bindlines` (source lines 133-134): for each zipped
pair attach one binding from own line `lineown` to the owner's line
`lineowner`, raising `IndexError` if either index is outside the declared
lines. -/
def bindStep (node : BindNode) (ownerLines : Nat) :
    List (Nat × Nat) → Except PyErr BindNode
  | [] => .ok node
  | (lineowner, lineown) :: ps =>
    if lineown < node.nlines ∧ lineowner < ownerLines then
      bindStep { node with bindings := node.bindings ++ [(lineown, lineowner)] }
        ownerLines ps
    else .error .indexError

/-- `LineIterator.bindlines` (source lines 122-136): normalise both
arguments via Python truthiness, zip owner indices with own indices, attach
one binding per pair, and return `self` (the node, with the new bindings
attached to its lines). -/
def LineIterator.bindlines (node : BindNode) (ownerLines : Nat)
    (owner own : PyArg) : Except PyErr BindNode :=
  let ownerIdx := normOwner owner
  let ownIdx := normOwn own ownerIdx.length
  bindStep node ownerLines (ownerIdx.zip ownIdx)

/-! ### VChart CSV feed adapter -/

/-- The seven declared lines of the VChart CSV stream; `open_` stands for
the source's `open` line (a Lean keyword). -/
inductive FeedLine where
  | datetime
  | open_
  | high
  | low
  | close
  | volume
  | openinterest
  deriving DecidableEq, Repr

/-- A CSV token, as its character list (a Python `str`). -/
abbrev Token := List Char

/-- Decimal value of a digit character, `none` for any other character. -/
def digitVal (c : Char) : Option Nat :=
  if 48 ≤ c.toNat ∧ c.toNat ≤ 57 then some (c.toNat - 48) else none

/-- Accumulating loop of the digit parser. -/
def tokToNatGo : List Char → Nat → Option Nat
  | [], acc => some acc
  | c :: cs, acc =>
    match digitVal c with
    | some v => tokToNatGo cs (acc * 10 + v)
    | none => none

/-- Python's `int` on a VChart date/time field: a nonempty all-digit token
parses to its value, anything else raises (`none`); the builtin also strips
signs and whitespace, which never occur in these fields. -/
def tokToNat : Token → Option Nat
  | [] => none
  | c :: cs =>
    match digitVal c with
    | some v => tokToNatGo cs v
    | none => none

/-- A value written by the feed: a decoded `datetime.datetime`, or a float
field carried as its raw token (`pf` below models Python's `float`; the
claims do not depend on float decoding). -/
inductive FeedVal where
  | dt (y m d hh mm ss : Nat)
  | fl (raw : Token)
  deriving DecidableEq, Repr

/-- `VChartCSVData._loadline` (source lines 32-52): skip the ticker and
session columns, decode the date token (`YYYYMMDD`, three `int` slices) and
the time token (one `int`, split by `divmod`), build the `datetime`, then
read one float token for each remaining line.  On success it performs
exactly the returned ordered write sequence — one `[0] =` assignment per
line — and returns `True`; `none` models the Python call raising (missing
token, non-numeric int field, out-of-range datetime, or a float token
rejected by `pf`).  The `datetime.datetime` range check is modelled by the
simple bounds test (the source's month-length validation is finer, which
only shrinks the accepted set the verified statement quantifies over). -/
def VChartCSVData.loadline (pf : Token → Option Token)
    (linetokens : List Token) : Option (List (FeedLine × FeedVal)) :=
  match linetokens.get? 2 with
  | none => none
  | some dttxt =>
    match tokToNat (dttxt.take 4), tokToNat ((dttxt.drop 4).take 2),
        tokToNat ((dttxt.drop 6).take 2) with
    | some y, some m, some d =>
      (match linetokens.get? 3 with
       | none => none
       | some tmtxt =>
         match tokToNat tmtxt with
         | none => none
         | some tm =>
           if 1 ≤ m ∧ m ≤ 12 ∧ 1 ≤ d ∧ d ≤ 31 ∧ 1 ≤ y ∧
               tm / 10000 < 24 ∧ tm % 10000 / 100 < 60 ∧ tm % 100 < 60 then
             match (linetokens.get? 4).bind pf, (linetokens.get? 5).bind pf,
                 (linetokens.get? 6).bind pf, (linetokens.get? 7).bind pf,
                 (linetokens.get? 8).bind pf, (linetokens.get? 9).bind pf with
             | some o, some hi, some lo, some cl, some vo, some oi =>
               some [(.datetime, .dt y m d (tm / 10000) (tm % 10000 / 100) (tm % 100)),
                 (.open_, .fl o), (.high, .fl hi), (.low, .fl lo), (.close, .fl cl),
                 (.volume, .fl vo), (.openinterest, .fl oi)]
             | _, _, _, _, _, _ => none
           else none)
    | _, _, _ => none

/-- The minperiod invariant of a registration state: `_minperiod` dominates
every registered indicator's `_minperiod` and every data's `_minperiod`. -/
def minperiodInv (st : LIState) : Prop :=
  (∀ m ∈ st.indicators, m ≤ st.minperiod) ∧ (∀ m ∈ st.datas, m ≤ st.minperiod)

/-- The node an event computes on: the step-mode lifecycle dispatch and the
batch-mode `preonce`/`once` ranges are computation, everything else
(forwarding, homing, notification, binding resolution) is not. -/
def computeId : Event → Option Nat
  | .callback j _ => some j
  | .preonce j _ _ => some j
  | .once j _ _ => some j
  | _ => none

/-- The node whose line bindings an event resolves. -/
def bindId : Event → Option Nat
  | .oncebinding j _ => some j
  | _ => none

/-- Concrete two-level graph used to evaluate the batch pipeline: root 1
(minperiod 2) with one indicator (id 2) and one observer (id 3). -/
def wInds7 : GForest := .cons (.mk 2 1 [] .nil .nil) .nil

/-- Observer forest of the concrete batch-pipeline graph. -/
def wObs7 : GForest := .cons (.mk 3 1 [] .nil .nil) .nil

/-- Store for the concrete batch-pipeline graph: a two-bar feed and fresh
one-line nodes. -/
def wS7 : Store := fun j => if j = 0 then [[some 7, some 8]] else [[]]

/-- First (reference) line of a series. -/
def seriesHead (ser : Series) : Line :=
  match ser with
  | [] => []
  | l :: _ => l

/-- Three-bar rolling mean over the feed's reference line (the scenario of
spec section 8): at bar `j` it averages bars `j-2 .. j`. -/
def meanf : Nat → Store → Val := fun j s =>
  ((((seriesHead (s fid)).take (j + 1)).drop (j - 2)).foldl
    (fun a x => a + x.getD 0) 0) / 3

/-- The rolling-mean node of the spec scenario (`minPeriod = 3`). -/
def rootMean : GNode := .mk 1 3 [meanf] .nil .nil

/-- An observer that computes (writes 9) in its `next`. -/
def obsCE : GNode := .mk 2 1 [fun _ _ => 9] .nil .nil

/-- A root with the computing observer `obsCE`: the graph on which step
mode and batch mode diverge. -/
def rootCE : GNode := .mk 1 1 [fun _ _ => 7] .nil (.cons obsCE .nil)

/-- Fresh store: one empty line everywhere (feed included). -/
def sOne : Store := fun _ => [[]]

/-! ## Helper lemmas -/

theorem upd_self (s : Store) (i : Nat) (v : Series) : upd s i v i = v := by
  simp [upd]

theorem upd_other (s : Store) (i : Nat) (v : Series) (j : Nat) (h : j ≠ i) :
    upd s i v j = s j := by
  simp [upd, h]

theorem le_foldl_max_self (l : List Nat) (a : Nat) : a ≤ l.foldl max a := by
  induction l generalizing a with
  | nil => exact le_refl a
  | cons y ys ih => exact le_trans (le_max_left a y) (ih (max a y))

theorem foldl_max_le_of_mem (l : List Nat) (a x : Nat) (hx : x ∈ l) :
    x ≤ l.foldl max a := by
  induction l generalizing a with
  | nil => cases hx
  | cons y ys ih =>
    rcases List.mem_cons.mp hx with rfl | hx'
    · exact le_trans (le_max_right a x) (le_foldl_max_self ys (max a x))
    · exact ih _ hx'

theorem addindicator_preserves (st : LIState) (c : Child)
    (h : minperiodInv st) : minperiodInv (LineIterator.addindicator st c) := by
  obtain ⟨h1, h2⟩ := h
  unfold LineIterator.addindicator
  by_cases hc : c.isObserver
  · simp only [hc, if_true]
    exact ⟨h1, h2⟩
  · simp only [hc, if_false, Bool.false_eq_true]
    constructor
    · intro m hm
      rcases List.mem_append.mp hm with hm' | hm'
      · exact le_trans (h1 m hm') (le_max_right _ _)
      · rcases List.mem_singleton.mp hm' with rfl
        exact le_max_left _ _
    · intro m hm
      exact le_trans (h2 m hm) (le_max_right _ _)

theorem foldl_addindicator_preserves (cs : List Child) (st : LIState)
    (h : minperiodInv st) :
    minperiodInv (cs.foldl LineIterator.addindicator st) := by
  induction cs generalizing st with
  | nil => exact h
  | cons c cs' ih => exact ih _ (addindicator_preserves st c h)

theorem mem_dedupFirst (x : Nat) :
    ∀ (l seen : List Nat), x ∈ dedupFirst l seen ↔ (x ∈ l ∧ x ∉ seen) := by
  intro l
  induction l with
  | nil => intro seen; simp [dedupFirst]
  | cons y ys ih =>
    intro seen
    unfold dedupFirst
    by_cases hy : y ∈ seen
    · rw [if_pos hy, ih]
      constructor
      · rintro ⟨hl, hs⟩
        exact ⟨List.mem_cons_of_mem _ hl, hs⟩
      · rintro ⟨hl, hs⟩
        rcases List.mem_cons.mp hl with rfl | hl'
        · exact absurd hy hs
        · exact ⟨hl', hs⟩
    · rw [if_neg hy]
      constructor
      · intro hx
        rcases List.mem_cons.mp hx with rfl | hx'
        · exact ⟨List.mem_cons_self _ _, hy⟩
        · obtain ⟨hl, hs⟩ := (ih _).mp hx'
          exact ⟨List.mem_cons_of_mem _ hl,
            fun hmem => hs (List.mem_cons_of_mem _ hmem)⟩
      · rintro ⟨hl, hs⟩
        rcases List.mem_cons.mp hl with rfl | hl'
        · exact List.mem_cons_self _ _
        · by_cases hxy : x = y
          · subst hxy; exact List.mem_cons_self _ _
          · exact List.mem_cons_of_mem _ ((ih _).mpr
              ⟨hl', fun hmem => by
                rcases List.mem_cons.mp hmem with h' | h'
                · exact hxy h'
                · exact hs h'⟩)

theorem gid_mem_allIds (g : GNode) : g.gid ∈ g.allIds := by
  cases g with
  | mk i mp fs inds obs => simp [GNode.gid, GNode.allIds]

theorem applyCb_other (cb : Callback) (i : Nat) (fs : List (Nat → Store → Val))
    (cl : Nat) (s : Store) (j : Nat) (h : j ≠ i) :
    applyCb cb i fs cl s j = s j := by
  cases cb <;> simp [applyCb, nextWrite, upd_other _ _ _ _ h]

mutual
theorem GNode.nextS_frame (n : GNode) (s : Store) (j : Nat)
    (hj : j ∉ n.allIds) : n.nextS s j = s j :=
  match n with
  | .mk i mp fs inds obs => by
    simp only [GNode.allIds, List.mem_cons, List.mem_append] at hj
    push_neg at hj
    obtain ⟨hji, hjinds, hjobs⟩ := hj
    simp only [GNode.nextS]
    rw [GForest.forest_nextS_frame obs _ _ hjobs, applyCb_other _ _ _ _ _ _ hji,
      GForest.forest_nextS_frame inds _ _ hjinds]
    by_cases hc : seriesLen (s fid) ≠ seriesLen (s i)
    · rw [if_pos hc, upd_other _ _ _ _ hji]
    · rw [if_neg hc]

theorem GForest.forest_nextS_frame (F : GForest) (s : Store) (j : Nat)
    (hj : j ∉ F.allIds) : F.nextS s j = s j :=
  match F with
  | .nil => rfl
  | .cons g gs => by
    simp only [GForest.allIds, List.mem_append] at hj
    push_neg at hj
    simp only [GForest.nextS]
    rw [GForest.forest_nextS_frame gs _ _ hj.2, GNode.nextS_frame g _ _ hj.1]
end

theorem GForest.obsForward_frame :
    ∀ (F : GForest) (i : Nat) (s : Store) (j : Nat), j ∉ F.allIds →
      GForest.obsForward F i s j = s j
  | .nil, _, _, _, _ => rfl
  | .cons o os, i, s, j, hj => by
    simp only [GForest.allIds, List.mem_append] at hj
    push_neg at hj
    simp only [GForest.obsForward]
    rw [GForest.obsForward_frame os i _ j hj.2,
      upd_other _ _ _ _ (fun h => hj.1 (by rw [h]; exact gid_mem_allIds o))]

theorem onceLoop_frame (i : Nat) (fs : List (Nat → Store → Val)) :
    ∀ (cnt j : Nat) (s : Store) (k : Nat), k ≠ i →
      onceLoop i fs cnt j s k = s k := by
  intro cnt
  induction cnt with
  | zero => intro j s k _; rfl
  | succ c ih =>
    intro j s k hk
    simp only [onceLoop]
    rw [ih _ _ _ hk, upd_other _ _ _ _ hk]

theorem onceRange_frame (i : Nat) (fs : List (Nat → Store → Val))
    (start stop : Nat) (s : Store) (k : Nat) (hk : k ≠ i) :
    onceRange i fs start stop s k = s k :=
  onceLoop_frame i fs _ start s k hk

mutual
theorem GNode.onceS_frame (n : GNode) (s : Store) (j : Nat)
    (hj : j ∉ n.allIds) : n.onceS s j = s j :=
  match n with
  | .mk i mp fs inds obs => by
    simp only [GNode.allIds, List.mem_cons, List.mem_append] at hj
    push_neg at hj
    obtain ⟨hji, hjinds, hjobs⟩ := hj
    simp only [GNode.onceS]
    rw [onceRange_frame _ _ _ _ _ _ hji, GForest.obsForward_frame _ _ _ _ hjobs,
      GForest.forest_onceS_frame inds _ _ hjinds, upd_other _ _ _ _ hji]

theorem GForest.forest_onceS_frame (F : GForest) (s : Store) (j : Nat)
    (hj : j ∉ F.allIds) : F.onceS s j = s j :=
  match F with
  | .nil => rfl
  | .cons g gs => by
    simp only [GForest.allIds, List.mem_append] at hj
    push_neg at hj
    simp only [GForest.onceS]
    rw [GForest.forest_onceS_frame gs _ _ hj.2, GNode.onceS_frame g _ _ hj.1]
end

theorem seriesLen_seriesWrite (j : Nat) (vs : List Val) (ser : Series) :
    seriesLen (seriesWrite j vs ser) = seriesLen ser := by
  match vs, ser with
  | [], ser => simp [seriesWrite]
  | _ :: _, [] => simp [seriesWrite]
  | v :: vs, l :: ls => simp [seriesWrite, seriesLen]

theorem seriesLen_applyCb (cb : Callback) (i : Nat)
    (fs : List (Nat → Store → Val)) (cl : Nat) (s : Store) :
    seriesLen (applyCb cb i fs cl s i) = seriesLen (s i) := by
  cases cb <;> simp [applyCb, nextWrite, upd_self, seriesLen_seriesWrite]

mutual
theorem GNode.nextTr_ids (n : GNode) (s : Store) (e : Event)
    (he : e ∈ n.nextTr s) (j : Nat)
    (hj : e = Event.forward j ∨ e = Event.notify j ∨
      ∃ cb, e = Event.callback j cb) :
    j ∈ n.allIds :=
  match n with
  | .mk i mp fs inds obs => by
    simp only [GNode.nextTr, List.mem_append, List.mem_cons] at he
    simp only [GNode.allIds, List.mem_cons, List.mem_append]
    rcases he with ((hf | hind) | (h1 | h2 | hfalse)) | hobs
    · left
      split at hf
      · rcases List.mem_singleton.mp hf with rfl
        rcases hj with h | h | ⟨cb, h⟩ <;> cases h
        rfl
      · cases hf
    · exact Or.inr (Or.inl (GForest.forest_nextTr_ids inds _ e hind j hj))
    · left
      subst h1
      rcases hj with h | h | ⟨cb, h⟩ <;> cases h
      rfl
    · left
      subst h2
      rcases hj with h | h | ⟨cb, h⟩ <;> cases h
      rfl
    · cases hfalse
    · exact Or.inr (Or.inr (GForest.forest_nextTr_ids obs _ e hobs j hj))

theorem GForest.forest_nextTr_ids (F : GForest) (s : Store) (e : Event)
    (he : e ∈ F.nextTr s) (j : Nat)
    (hj : e = Event.forward j ∨ e = Event.notify j ∨
      ∃ cb, e = Event.callback j cb) :
    j ∈ F.allIds :=
  match F with
  | .nil => by cases he
  | .cons g gs => by
    simp only [GForest.nextTr, List.mem_append] at he
    simp only [GForest.allIds, List.mem_append]
    rcases he with hg | hgs
    · exact Or.inl (GNode.nextTr_ids g _ e hg j hj)
    · exact Or.inr (GForest.forest_nextTr_ids gs _ e hgs j hj)
end

theorem dispatch_eq_prenext (L M : Nat) : dispatch L M = .prenext ↔ L < M := by
  unfold dispatch
  by_cases h1 : L > M
  · rw [if_pos h1]
    constructor
    · intro h; cases h
    · intro h; omega
  · rw [if_neg h1]
    by_cases h2 : L = M
    · rw [if_pos h2]
      constructor
      · intro h; cases h
      · intro h; omega
    · rw [if_neg h2]
      constructor
      · intro _; omega
      · intro _; rfl

theorem dispatch_eq_nextstart (L M : Nat) : dispatch L M = .nextstart ↔ L = M := by
  unfold dispatch
  by_cases h1 : L > M
  · rw [if_pos h1]
    constructor
    · intro h; cases h
    · intro h; omega
  · rw [if_neg h1]
    by_cases h2 : L = M
    · rw [if_pos h2]
      exact ⟨fun _ => h2, fun _ => rfl⟩
    · rw [if_neg h2]
      constructor
      · intro h; cases h
      · intro h; exact absurd h h2

theorem dispatch_eq_next (L M : Nat) : dispatch L M = .next ↔ M < L := by
  unfold dispatch
  by_cases h1 : L > M
  · rw [if_pos h1]
    exact ⟨fun _ => h1, fun _ => rfl⟩
  · rw [if_neg h1]
    by_cases h2 : L = M
    · rw [if_pos h2]
      constructor
      · intro h; cases h
      · intro h; omega
    · rw [if_neg h2]
      constructor
      · intro h; cases h
      · intro h; exact absurd h h1

theorem filterMap_callbacks_nil (F : GForest) (s : Store) (i : Nat)
    (hi : i ∉ F.allIds) :
    (F.nextTr s).filterMap (fun e => match e with
      | Event.callback j cb => if j = i then some cb else none
      | _ => none) = [] := by
  rw [List.filterMap_eq_nil_iff]
  intro e he
  cases e with
  | callback j cb =>
    have hj : j ∈ F.allIds := GForest.forest_nextTr_ids F s _ he j (Or.inr (Or.inr ⟨cb, rfl⟩))
    have hne : j ≠ i := fun hji => hi (hji ▸ hj)
    show (if j = i then some cb else none) = none
    rw [if_neg hne]
  | forward j => rfl
  | forwardN j n => rfl
  | notify j => rfl
  | home j => rfl
  | preonce j a b => rfl
  | once j a b => rfl
  | oncebinding j p => rfl

theorem nextTr_root_callbacks (i mp : Nat) (fs : List (Nat → Store → Val))
    (inds obs : GForest) (s : Store)
    (hinds : i ∉ inds.allIds) (hobs : i ∉ obs.allIds) :
    ((GNode.mk i mp fs inds obs).nextTr s).filterMap (fun e => match e with
      | Event.callback j cb => if j = i then some cb else none
      | _ => none) = [dispatch (seriesLen (s fid)) mp] := by
  simp only [GNode.nextTr, List.filterMap_append,
    filterMap_callbacks_nil inds _ i hinds, filterMap_callbacks_nil obs _ i hobs]
  by_cases hc : seriesLen (s fid) ≠ seriesLen (s i)
  · rw [if_pos hc]
    simp [List.filterMap]
  · rw [if_neg hc]
    simp [List.filterMap]

theorem pushFeed_len (s : Store) (b : Val) (h : s fid ≠ []) :
    seriesLen (pushFeed s b fid) = seriesLen (s fid) + 1 := by
  rcases hx : s fid with _ | ⟨l, ls⟩
  · exact absurd hx h
  · simp [pushFeed, upd_self, hx, seriesLen]

theorem pushFeed_ne_nil (s : Store) (b : Val) (h : s fid ≠ []) :
    pushFeed s b fid ≠ [] := by
  rcases hx : s fid with _ | ⟨l, ls⟩
  · exact absurd hx h
  · simp [pushFeed, upd_self, hx]

theorem stepRunTr_root_callbacks (i mp : Nat) (fs : List (Nat → Store → Val))
    (inds obs : GForest) (bars : List Val) :
    ∀ (s : Store), i ∉ inds.allIds → i ∉ obs.allIds →
      fid ∉ (GNode.mk i mp fs inds obs).allIds → s fid ≠ [] →
      (stepRunTr (GNode.mk i mp fs inds obs) bars s).filterMap
          (fun e => match e with
            | Event.callback j cb => if j = i then some cb else none
            | _ => none) =
        (List.range bars.length).map
          (fun t => dispatch (seriesLen (s fid) + t + 1) mp) := by
  induction bars with
  | nil => intro s _ _ _ _; rfl
  | cons b bs ih =>
    intro s hinds hobs hfid hne
    have hplen := pushFeed_len s b hne
    have hpne := pushFeed_ne_nil s b hne
    have hfeedkeep : (GNode.mk i mp fs inds obs).nextS (pushFeed s b) fid =
        pushFeed s b fid :=
      GNode.nextS_frame _ _ _ hfid
    have hihs := ih ((GNode.mk i mp fs inds obs).nextS (pushFeed s b))
      hinds hobs hfid (by rw [hfeedkeep]; exact hpne)
    rw [hfeedkeep, hplen] at hihs
    simp only [stepRunTr, List.filterMap_append,
      nextTr_root_callbacks i mp fs inds obs _ hinds hobs, hihs, hplen,
      List.length_cons]
    rw [List.range_succ_eq_map, List.map_cons, List.map_map,
      List.singleton_append]
    congr 1
    apply List.map_congr_left
    intro t _
    simp only [Function.comp_apply]
    congr 2
    omega

theorem count_nextstart_range (M : Nat) (T : Nat) :
    ((List.range T).map (fun t => dispatch (t + 1) M)).count Callback.nextstart =
      if 1 ≤ M ∧ M ≤ T then 1 else 0 := by
  induction T with
  | zero =>
    rw [if_neg (by omega)]
    rfl
  | succ T ih =>
    rw [List.range_succ, List.map_append, List.count_append, ih]
    simp only [List.map_cons, List.map_nil]
    by_cases hM : T + 1 = M
    · rw [(dispatch_eq_nextstart _ _).mpr hM, if_neg (by omega),
        if_pos (by omega)]
      rfl
    · have h2 : [dispatch (T + 1) M].count Callback.nextstart = 0 := by
        rw [List.count_eq_zero]
        intro hmem
        exact hM ((dispatch_eq_nextstart _ _).mp
          (List.mem_singleton.mp hmem).symm)
      rw [h2]
      by_cases hc : 1 ≤ M ∧ M ≤ T
      · rw [if_pos hc, if_pos (by omega)]
      · rw [if_neg hc, if_neg (by omega)]

theorem seriesWrite_length (j : Nat) : ∀ (vs : List Val) (ser : Series),
    (seriesWrite j vs ser).length = ser.length
  | [], ser => by simp [seriesWrite]
  | _ :: _, [] => by simp [seriesWrite]
  | v :: vs, l :: ls => by simp [seriesWrite, seriesWrite_length j vs ls]

theorem onceLoop_own_length (i : Nat) (fs : List (Nat → Store → Val)) :
    ∀ (cnt j : Nat) (s : Store),
      (onceLoop i fs cnt j s i).length = (s i).length
  | 0, _, _ => rfl
  | cnt + 1, j, s => by
    simp only [onceLoop]
    rw [onceLoop_own_length i fs cnt (j + 1) _, upd_self, seriesWrite_length]

mutual
theorem GNode.mainIds_subset (n : GNode) (j : Nat) (h : j ∈ n.mainIds) :
    j ∈ n.allIds :=
  match n with
  | .mk i mp fs inds obs => by
    simp only [GNode.mainIds, List.mem_cons] at h
    simp only [GNode.allIds, List.mem_cons, List.mem_append]
    rcases h with rfl | h'
    · exact Or.inl rfl
    · exact Or.inr (Or.inl (GForest.forest_mainIds_subset inds j h'))

theorem GForest.forest_mainIds_subset (F : GForest) (j : Nat) (h : j ∈ F.mainIds) :
    j ∈ F.allIds :=
  match F with
  | .nil => by cases h
  | .cons g gs => by
    simp only [GForest.mainIds, List.mem_append] at h
    simp only [GForest.allIds, List.mem_append]
    rcases h with h' | h'
    · exact Or.inl (GNode.mainIds_subset g j h')
    · exact Or.inr (GForest.forest_mainIds_subset gs j h')
end

theorem obsFwdTr_shape :
    ∀ (F : GForest) (i : Nat) (s : Store) (e : Event), e ∈ F.obsFwdTr i s →
      ∃ o sz, e = Event.forwardN o sz
  | .nil, _, _, _, h => by cases h
  | .cons o os, i, s, e, h => by
    simp only [GForest.obsFwdTr, List.mem_cons] at h
    rcases h with rfl | h'
    · exact ⟨o.gid, _, rfl⟩
    · exact obsFwdTr_shape os i _ e h'

theorem obsFwdTr_covers :
    ∀ (F : GForest) (i : Nat) (s : Store) (j : Nat), j ∈ F.topIds →
      ∃ sz, Event.forwardN j sz ∈ F.obsFwdTr i s
  | .nil, _, _, _, h => by cases h
  | .cons o os, i, s, j, h => by
    simp only [GForest.topIds, List.mem_cons] at h
    simp only [GForest.obsFwdTr, List.mem_cons]
    rcases h with rfl | h'
    · exact ⟨seriesLen (s i), Or.inl rfl⟩
    · obtain ⟨sz, hsz⟩ := obsFwdTr_covers os i _ j h'
      exact ⟨sz, Or.inr hsz⟩

mutual
theorem GNode.onceTr_main_ids (n : GNode) (s : Store) (e : Event)
    (he : e ∈ n.onceTr s) (j : Nat)
    (hj : computeId e = some j ∨ bindId e = some j) : j ∈ n.mainIds :=
  match n with
  | .mk i mp fs inds obs => by
    simp only [GNode.onceTr, List.mem_cons, List.mem_append, List.mem_map,
      List.mem_singleton] at he
    simp only [GNode.mainIds, List.mem_cons]
    rcases he with rfl | he
    · simp [computeId, bindId] at hj
    rcases he with ((((((hind | hobsf) | hhf) | hhomei) | hhomeo) | hhs) | hpo) | hbind
    · exact Or.inr (GForest.forest_onceTr_main_ids inds _ e hind j hj)
    · obtain ⟨o, sz, rfl⟩ := obsFwdTr_shape obs i _ e hobsf
      simp [computeId, bindId] at hj
    · rcases hhf with rfl | h0
      · simp [computeId, bindId] at hj
      · cases h0
    · obtain ⟨a, -, rfl⟩ := hhomei
      simp [computeId, bindId] at hj
    · obtain ⟨a, -, rfl⟩ := hhomeo
      simp [computeId, bindId] at hj
    · rcases hhs with rfl | h0
      · simp [computeId, bindId] at hj
      · cases h0
    · rcases hpo with rfl | (rfl | h0)
      · rcases hj with hj | hj
        · exact Or.inl (Option.some.inj hj).symm
        · simp [bindId] at hj
      · rcases hj with hj | hj
        · exact Or.inl (Option.some.inj hj).symm
        · simp [bindId] at hj
      · cases h0
    · obtain ⟨a, -, rfl⟩ := hbind
      rcases hj with hj | hj
      · simp [computeId] at hj
      · exact Or.inl (Option.some.inj hj).symm

theorem GForest.forest_onceTr_main_ids (F : GForest) (s : Store) (e : Event)
    (he : e ∈ F.onceTr s) (j : Nat)
    (hj : computeId e = some j ∨ bindId e = some j) : j ∈ F.mainIds :=
  match F with
  | .nil => by cases he
  | .cons g gs => by
    simp only [GForest.onceTr, List.mem_append] at he
    simp only [GForest.mainIds, List.mem_append]
    rcases he with h' | h'
    · exact Or.inl (GNode.onceTr_main_ids g _ e h' j hj)
    · exact Or.inr (GForest.forest_onceTr_main_ids gs _ e h' j hj)
end

theorem take_set_comm (l : Line) (j m : Nat) (v : Option Val) :
    (l.set j v).take m = (l.take m).set j v := by
  induction l generalizing j m with
  | nil => simp
  | cons x xs ih =>
    cases j with
    | zero =>
      cases m with
      | zero => simp
      | succ m => simp [List.set, List.take]
    | succ j =>
      cases m with
      | zero => simp
      | succ m => simp [List.set, List.take, ih]

theorem truncS_seriesWrite_comm (j : Nat) : ∀ (vs : List Val) (ser : Series),
    truncS (j + 1) (seriesWrite j vs ser) = seriesWrite j vs (truncS (j + 1) ser)
  | [], ser => by simp [seriesWrite]
  | _ :: _, [] => by simp [seriesWrite, truncS]
  | v :: vs, l :: ls => by
    simp only [seriesWrite, truncS, List.map_cons]
    rw [take_set_comm]
    exact congrArg _ (truncS_seriesWrite_comm j vs ls)

theorem set_of_take_le (l : Line) (j m : Nat) (v : Option Val) (h : m ≤ j) :
    (l.take m).set j v = l.take m := by
  apply List.set_eq_of_length_le
  calc (l.take m).length ≤ m := by simp
    _ ≤ j := h

theorem truncS_seriesWrite_le (m j : Nat) (hmj : m ≤ j) :
    ∀ (vs : List Val) (ser : Series),
      truncS m (seriesWrite j vs ser) = truncS m ser
  | [], ser => by simp [seriesWrite]
  | _ :: _, [] => by simp [seriesWrite]
  | v :: vs, l :: ls => by
    simp only [seriesWrite, truncS, List.map_cons]
    rw [take_set_comm, set_of_take_le _ _ _ _ hmj]
    exact congrArg _ (truncS_seriesWrite_le m j hmj vs ls)

theorem seriesWrite_slot_ne (j m : Nat) (hjm : j ≠ m) :
    ∀ (vs : List Val) (ser : Series), (∀ l ∈ ser, l[m]? = some none) →
      ∀ l ∈ seriesWrite j vs ser, l[m]? = some none
  | [], ser, h => by simpa [seriesWrite] using h
  | _ :: _, [], h => by intro l hl; cases hl
  | v :: vs, l0 :: ls, h => by
    intro l hl
    simp only [seriesWrite, List.mem_cons] at hl
    rcases hl with rfl | hl'
    · rw [List.getElem?_set_ne hjm]
      exact h l0 (List.mem_cons_self _ _)
    · exact seriesWrite_slot_ne j m hjm vs ls
        (fun l1 hl1 => h l1 (List.mem_cons_of_mem _ hl1)) l hl'

theorem seriesWrite_lines_len (j T : Nat) : ∀ (vs : List Val) (ser : Series),
    (∀ l ∈ ser, l.length = T) → ∀ l ∈ seriesWrite j vs ser, l.length = T
  | [], ser, h => by simpa [seriesWrite] using h
  | _ :: _, [], h => by intro l hl; cases hl
  | v :: vs, l0 :: ls, h => by
    intro l hl
    simp only [seriesWrite, List.mem_cons] at hl
    rcases hl with rfl | hl'
    · rw [List.length_set]
      exact h l0 (List.mem_cons_self _ _)
    · exact seriesWrite_lines_len j T vs ls
        (fun l1 hl1 => h l1 (List.mem_cons_of_mem _ hl1)) l hl'

theorem onceLoop_split (i : Nat) (fs : List (Nat → Store → Val)) :
    ∀ (a b j : Nat) (s : Store),
      onceLoop i fs (a + b) j s = onceLoop i fs b (j + a) (onceLoop i fs a j s)
  | 0, b, j, s => by simp [onceLoop]
  | a + 1, b, j, s => by
    have h1 : a + 1 + b = a + b + 1 := by omega
    rw [h1]
    simp only [onceLoop]
    rw [onceLoop_split i fs a b (j + 1) _]
    have h2 : j + 1 + a = j + (a + 1) := by omega
    rw [h2]

theorem truncS_onceLoop_le (i : Nat) (fs : List (Nat → Store → Val)) :
    ∀ (cnt j m : Nat) (s : Store), m ≤ j →
      truncS m (onceLoop i fs cnt j s i) = truncS m (s i)
  | 0, _, _, _, _ => rfl
  | cnt + 1, j, m, s, h => by
    simp only [onceLoop]
    rw [truncS_onceLoop_le i fs cnt (j + 1) m _ (by omega), upd_self,
      truncS_seriesWrite_le m j h]

theorem onceLoop_slot_none (i : Nat) (fs : List (Nat → Store → Val)) :
    ∀ (cnt j m : Nat) (s : Store), j + cnt ≤ m →
      (∀ l ∈ s i, l[m]? = some none) →
      ∀ l ∈ (onceLoop i fs cnt j s) i, l[m]? = some none
  | 0, _, _, _, _, h => h
  | cnt + 1, j, m, s, hjm, h => by
    simp only [onceLoop]
    apply onceLoop_slot_none i fs cnt (j + 1) m _ (by omega)
    rw [upd_self]
    exact seriesWrite_slot_ne j m (by omega) _ _ h

theorem onceLoop_lines_len (i T : Nat) (fs : List (Nat → Store → Val)) :
    ∀ (cnt j : Nat) (s : Store), (∀ l ∈ s i, l.length = T) →
      ∀ l ∈ (onceLoop i fs cnt j s) i, l.length = T
  | 0, _, _, h => h
  | cnt + 1, j, s, h => by
    simp only [onceLoop]
    apply onceLoop_lines_len i T fs cnt (j + 1) _
    rw [upd_self]
    exact seriesWrite_lines_len j T _ _ h

theorem seriesLen_truncS (m : Nat) (ser : Series) :
    seriesLen (truncS m ser) = min m (seriesLen ser) := by
  cases ser with
  | nil => simp [truncS, seriesLen]
  | cons l ls => simp [truncS, seriesLen]

theorem truncS_truncS (m : Nat) (ser : Series) :
    truncS m (truncS m ser) = truncS m ser := by
  simp [truncS, List.map_map, Function.comp, List.take_take]

theorem truncS_of_lines_le (m : Nat) (ser : Series)
    (h : ∀ l ∈ ser, l.length ≤ m) : truncS m ser = ser := by
  unfold truncS
  induction ser with
  | nil => rfl
  | cons l ls ih =>
    simp only [List.map_cons]
    rw [List.take_of_length_le (h l (List.mem_cons_self _ _)),
      ih (fun l1 h1 => h l1 (List.mem_cons_of_mem _ h1))]

theorem truncS_succ_of_none_at (ser : Series) (k : Nat)
    (h : ∀ l ∈ ser, l[k]? = some none) :
    truncS (k + 1) ser = seriesForward (truncS k ser) := by
  unfold truncS seriesForward
  rw [List.map_map]
  apply List.map_congr_left
  intro l hl
  simp only [Function.comp_apply]
  rw [List.take_succ, h l hl]
  rfl

theorem fwdN_empty_char (T : Nat) (ser : Series) (h : ∀ l ∈ ser, l = []) :
    ∀ l ∈ seriesForwardN T ser, l = List.replicate T none := by
  intro l hl
  obtain ⟨l0, hl0, rfl⟩ := List.mem_map.mp hl
  rw [h l0 hl0]
  rfl

theorem seriesLen_of_lines (ser : Series) (T : Nat) (hne : ser ≠ [])
    (h : ∀ l ∈ ser, l.length = T) : seriesLen ser = T := by
  cases ser with
  | nil => exact absurd rfl hne
  | cons l ls => exact h l (List.mem_cons_self _ _)

theorem obsForward_count :
    ∀ (F : GForest) (j : Nat) (s : Store) (i : Nat),
      ((GForest.obsForward F j s) i).length = (s i).length
  | .nil, _, _, _ => rfl
  | .cons o os, j, s, i => by
    simp only [GForest.obsForward]
    rw [obsForward_count os j _ i]
    by_cases hio : i = o.gid
    · subst hio
      rw [upd_self]
      simp [seriesForwardN]
    · rw [upd_other _ _ _ _ hio]

theorem onceLoop_count (i0 : Nat) (fs : List (Nat → Store → Val)) :
    ∀ (cnt j : Nat) (s : Store) (i : Nat),
      ((onceLoop i0 fs cnt j s) i).length = (s i).length
  | 0, _, _, _ => rfl
  | cnt + 1, j, s, i => by
    simp only [onceLoop]
    rw [onceLoop_count i0 fs cnt (j + 1) _ i]
    by_cases hio : i = i0
    · subst hio
      rw [upd_self, seriesWrite_length]
    · rw [upd_other _ _ _ _ hio]

mutual
theorem GNode.onceS_count (n : GNode) (s : Store) (i : Nat) :
    ((n.onceS s) i).length = (s i).length :=
  match n with
  | .mk i0 mp fs inds obs => by
    simp only [GNode.onceS]
    unfold onceRange
    rw [onceLoop_count, obsForward_count, GForest.forest_onceS_count inds _ i]
    by_cases hio : i = i0
    · subst hio
      rw [upd_self]
      simp [seriesForwardN]
    · rw [upd_other _ _ _ _ hio]

theorem GForest.forest_onceS_count (F : GForest) (s : Store) (i : Nat) :
    ((F.onceS s) i).length = (s i).length :=
  match F with
  | .nil => rfl
  | .cons g gs => by
    simp only [GForest.onceS]
    rw [GForest.forest_onceS_count gs _ i, GNode.onceS_count g s i]
end

mutual
theorem GNode.onceS_main_len (n : GNode) (sB : Store)
    (hnd : n.allIds.Nodup) (hfid : fid ∉ n.allIds)
    (hempty : ∀ i ∈ n.mainIds, ∀ l ∈ sB i, l = []) :
    ∀ i ∈ n.mainIds, ∀ l ∈ (n.onceS sB) i, l.length = seriesLen (sB fid) :=
  match n with
  | .mk i0 mp fs inds obs => by
    simp only [GNode.allIds, List.nodup_cons, List.mem_cons,
      List.mem_append] at hnd hfid
    push_neg at hnd hfid
    obtain ⟨⟨hi0inds, hi0obs⟩, hndf⟩ := hnd
    obtain ⟨hfid0, hfidinds, hfidobs⟩ := hfid
    have hdisj := (List.nodup_append.mp hndf).2.2
    intro i hi
    simp only [GNode.mainIds, List.mem_cons] at hi
    have hs3lines : ∀ l ∈ (GForest.obsForward obs i0
        (GForest.onceS inds (upd sB i0 (seriesForwardN (seriesLen (sB fid))
          (sB i0))))) i0, l.length = seriesLen (sB fid) := by
      rw [GForest.obsForward_frame obs i0 _ i0 hi0obs,
        GForest.forest_onceS_frame inds _ i0 hi0inds, upd_self]
      intro l hl
      rw [fwdN_empty_char _ _ (hempty i0 (by
        simp [GNode.mainIds])) l hl]
      simp
    rcases hi with rfl | hi'
    · simp only [GNode.onceS]
      unfold onceRange
      exact onceLoop_lines_len i _ fs _ _ _ hs3lines
    · have hii0 : i ≠ i0 := fun hii => hi0inds (hii ▸
        GForest.forest_mainIds_subset inds i hi')
      have hiobs : i ∉ obs.allIds := fun hio =>
        hdisj (GForest.forest_mainIds_subset inds i hi') hio
      simp only [GNode.onceS]
      rw [onceRange_frame _ _ _ _ _ _ hii0,
        GForest.obsForward_frame obs i0 _ i hiobs]
      have := GForest.forest_onceS_main_len inds
        (upd sB i0 (seriesForwardN (seriesLen (sB fid)) (sB i0)))
        (List.nodup_append.mp hndf).1 hfidinds
        (fun i1 hi1 => by
          rw [upd_other _ _ _ _ (fun hii => hi0inds (by
            rw [← hii]
            exact GForest.forest_mainIds_subset inds i1 hi1))]
          exact hempty i1 (by
            simp only [GNode.mainIds, List.mem_cons]
            exact Or.inr hi1))
        i hi'
      rwa [upd_other _ _ _ _ hfid0] at this

theorem GForest.forest_onceS_main_len (F : GForest) (sB : Store)
    (hnd : F.allIds.Nodup) (hfid : fid ∉ F.allIds)
    (hempty : ∀ i ∈ F.mainIds, ∀ l ∈ sB i, l = []) :
    ∀ i ∈ F.mainIds, ∀ l ∈ (F.onceS sB) i, l.length = seriesLen (sB fid) :=
  match F with
  | .nil => by intro i hi; cases hi
  | .cons g gs => by
    simp only [GForest.allIds, List.mem_append] at hfid
    push_neg at hfid
    obtain ⟨hfg, hfgs⟩ := hfid
    have hndg := (List.nodup_append.mp hnd).1
    have hndgs := (List.nodup_append.mp hnd).2.1
    have hdisj := (List.nodup_append.mp hnd).2.2
    intro i hi
    simp only [GForest.mainIds, List.mem_append] at hi
    simp only [GForest.onceS]
    rcases hi with hi' | hi'
    · have higs : i ∉ gs.allIds :=
        fun hio => hdisj (GNode.mainIds_subset g i hi') hio
      rw [GForest.forest_onceS_frame gs _ i higs]
      exact GNode.onceS_main_len g sB hndg hfg
        (fun i1 hi1 => hempty i1 (by
          simp only [GForest.mainIds, List.mem_append]
          exact Or.inl hi1)) i hi'
    · have := GForest.forest_onceS_main_len gs (g.onceS sB) hndgs hfgs
        (fun i1 hi1 => by
          rw [GNode.onceS_frame g sB i1 (fun hig =>
            hdisj hig (GForest.forest_mainIds_subset gs i1 hi1))]
          exact hempty i1 (by
            simp only [GForest.mainIds, List.mem_append]
            exact Or.inr hi1))
        i hi'
      rwa [GNode.onceS_frame g sB fid hfg] at this
end

mutual
/-- Simulation step: if after `k` step-mode bars every computational buffer
of the subtree equals the first `k` bars of its batch-mode result, then one
more `_next` call (with the feed at `k + 1` bars) extends the agreement to
`k + 1` bars. -/
theorem GNode.sim (n : GNode) (sS sB : Store) (k : Nat)
    (hnd : n.allIds.Nodup) (hfid : fid ∉ n.allIds) (hdep : n.HDep)
    (hk : k + 1 ≤ seriesLen (sB fid))
    (hfeed : sS fid = truncS (k + 1) (sB fid))
    (hmain : ∀ i ∈ n.mainIds, sS i = truncS k ((n.onceS sB) i))
    (hempty : ∀ i ∈ n.mainIds, (∀ l ∈ sB i, l = []) ∧ sB i ≠ []) :
    ∀ i ∈ n.mainIds, (n.nextS sS) i = truncS (k + 1) ((n.onceS sB) i) :=
  match n with
  | .mk i0 mp fs inds obs => by
    simp only [GNode.allIds, List.nodup_cons, List.mem_cons,
      List.mem_append] at hnd hfid
    push_neg at hnd hfid
    obtain ⟨⟨hi0inds, hi0obs⟩, hndf⟩ := hnd
    obtain ⟨hfid0, hfidinds, hfidobs⟩ := hfid
    have hndinds := (List.nodup_append.mp hndf).1
    have hdisj := (List.nodup_append.mp hndf).2.2
    simp only [GNode.HDep] at hdep
    obtain ⟨hdepf, hdepinds⟩ := hdep
    have hE := (hempty i0 (by simp [GNode.mainIds])).1
    have hEne := (hempty i0 (by simp [GNode.mainIds])).2
    set T := seriesLen (sB fid) with hTdef
    set s1B := upd sB i0 (seriesForwardN T (sB i0)) with hs1Bdef
    set s2B := GForest.onceS inds s1B with hs2Bdef
    set s3B := GForest.obsForward obs i0 s2B with hs3Bdef
    have hBdef : (GNode.mk i0 mp fs inds obs).onceS sB =
        onceRange i0 fs (mp - 1) (seriesLen (s3B i0)) s3B := by
      simp only [GNode.onceS]
    have hfeed1B : s1B fid = sB fid := by
      rw [hs1Bdef]
      exact upd_other _ _ _ _ hfid0
    have hfeed3B : s3B fid = sB fid := by
      rw [hs3Bdef, GForest.obsForward_frame obs _ _ fid hfidobs, hs2Bdef,
        GForest.forest_onceS_frame inds _ fid hfidinds]
      exact hfeed1B
    have hs3own : s3B i0 = seriesForwardN T (sB i0) := by
      rw [hs3Bdef, GForest.obsForward_frame obs i0 _ i0 hi0obs, hs2Bdef,
        GForest.forest_onceS_frame inds _ i0 hi0inds, hs1Bdef, upd_self]
    have hs3lines : ∀ l ∈ s3B i0, l.length = T := by
      rw [hs3own]
      intro l hl
      rw [fwdN_empty_char T _ hE l hl]
      simp
    have hs3none : ∀ m, m < T → ∀ l ∈ s3B i0, l[m]? = some none := by
      intro m hm l hl
      rw [hs3own] at hl
      rw [fwdN_empty_char T _ hE l hl,
        List.getElem?_eq_getElem (by simpa using hm)]
      simp
    have hs3ne : s3B i0 ≠ [] := by
      rw [hs3own]
      intro hcon
      exact hEne (List.map_eq_nil_iff.mp hcon)
    have hstop : seriesLen (s3B i0) = T := seriesLen_of_lines _ T hs3ne hs3lines
    have hBlen : ∀ l ∈ (GNode.mk i0 mp fs inds obs).onceS sB i0,
        l.length = T := by
      rw [hBdef]
      unfold onceRange
      exact onceLoop_lines_len i0 T fs _ _ _ hs3lines
    have hBne : (GNode.mk i0 mp fs inds obs).onceS sB i0 ≠ [] := by
      intro hcon
      apply hEne
      have hc := GNode.onceS_count (GNode.mk i0 mp fs inds obs) sB i0
      rw [hcon] at hc
      exact List.length_eq_zero.mp hc.symm
    have hBlenS : seriesLen ((GNode.mk i0 mp fs inds obs).onceS sB i0) = T :=
      seriesLen_of_lines _ T hBne hBlen
    have hmain0 : sS i0 = truncS k ((GNode.mk i0 mp fs inds obs).onceS sB i0) :=
      hmain i0 (by simp [GNode.mainIds])
    have hcl : seriesLen (sS fid) = k + 1 := by
      rw [hfeed, seriesLen_truncS, ← hTdef]
      omega
    have hlen0 : seriesLen (sS i0) = k := by
      rw [hmain0, seriesLen_truncS, hBlenS]
      omega
    have hfb : seriesLen (sS fid) ≠ seriesLen (sS i0) := by
      rw [hcl, hlen0]
      omega
    set s1S := upd sS i0 (seriesForward (sS i0)) with hs1Sdef
    have hfeed1S : s1S fid = sS fid := by
      rw [hs1Sdef]
      exact upd_other _ _ _ _ hfid0
    have hs1Sown : s1S i0 =
        seriesForward (truncS k ((GNode.mk i0 mp fs inds obs).onceS sB i0)) := by
      rw [hs1Sdef, upd_self, hmain0]
    have hmemN : ∀ i ∈ GForest.mainIds inds,
        i ∈ (GNode.mk i0 mp fs inds obs).mainIds := by
      intro i hi
      simp only [GNode.mainIds, List.mem_cons]
      exact Or.inr hi
    have hneq0 : ∀ i ∈ GForest.mainIds inds, i ≠ i0 := by
      intro i hi hii
      exact hi0inds (by rw [← hii]; exact GForest.forest_mainIds_subset inds i hi)
    have hnobs : ∀ i ∈ GForest.mainIds inds, i ∉ GForest.allIds obs := by
      intro i hi hio
      exact hdisj (GForest.forest_mainIds_subset inds i hi) hio
    have hNBchild : ∀ i ∈ GForest.mainIds inds,
        (GNode.mk i0 mp fs inds obs).onceS sB i = s2B i := by
      intro i hi
      rw [hBdef, onceRange_frame _ _ _ _ _ _ (hneq0 i hi), hs3Bdef,
        GForest.obsForward_frame obs i0 _ i (hnobs i hi)]
    have hsimF := GForest.forest_sim inds s1S s1B k hndinds hfidinds hdepinds
      (by rw [hfeed1B]; exact hk)
      (by rw [hfeed1S, hfeed, hfeed1B])
      (by intro i hi
          rw [hs1Sdef, upd_other _ _ _ _ (hneq0 i hi), hmain i (hmemN i hi),
            hNBchild i hi, hs2Bdef])
      (by intro i hi
          rw [hs1Bdef, upd_other _ _ _ _ (hneq0 i hi)]
          exact hempty i (hmemN i hi))
    have hgoalN : (GNode.mk i0 mp fs inds obs).nextS sS =
        GForest.nextS obs (applyCb (dispatch (seriesLen (sS fid)) mp) i0 fs
          (seriesLen (sS fid)) (GForest.nextS inds s1S)) := by
      simp only [GNode.nextS]
      rw [if_pos hfb, ← hs1Sdef]
    intro i hi
    simp only [GNode.mainIds, List.mem_cons] at hi
    rcases Nat.lt_or_ge (k + 1) mp with hcase | hcase
    · have hdisp : dispatch (seriesLen (sS fid)) mp = .prenext := by
        rw [hcl]
        exact (dispatch_eq_prenext _ _).mpr hcase
      have happ : applyCb (dispatch (seriesLen (sS fid)) mp) i0 fs
          (seriesLen (sS fid)) (GForest.nextS inds s1S) =
          GForest.nextS inds s1S := by
        rw [hdisp]
        rfl
      have htr1 : truncS (k + 1) ((GNode.mk i0 mp fs inds obs).onceS sB i0) =
          truncS (k + 1) (s3B i0) := by
        rw [hBdef]
        unfold onceRange
        exact truncS_onceLoop_le _ _ _ _ _ _ (by omega)
      have htr0 : truncS k ((GNode.mk i0 mp fs inds obs).onceS sB i0) =
          truncS k (s3B i0) := by
        rw [hBdef]
        unfold onceRange
        exact truncS_onceLoop_le _ _ _ _ _ _ (by omega)
      have hownfin : truncS (k + 1) ((GNode.mk i0 mp fs inds obs).onceS sB i0) =
          seriesForward (truncS k ((GNode.mk i0 mp fs inds obs).onceS sB i0)) := by
        rw [htr1, htr0]
        exact truncS_succ_of_none_at _ k (hs3none k (by omega))
      rcases hi with rfl | hi'
      · rw [hgoalN, GForest.forest_nextS_frame obs _ i hi0obs, happ,
          GForest.forest_nextS_frame inds s1S i hi0inds, hs1Sown, hownfin]
      · rw [hgoalN, GForest.forest_nextS_frame obs _ i (hnobs i hi'), happ,
          hsimF i hi', hNBchild i hi', hs2Bdef]
    · have hdisp : applyCb (dispatch (seriesLen (sS fid)) mp) i0 fs
          (seriesLen (sS fid)) (GForest.nextS inds s1S) =
          nextWrite i0 fs (seriesLen (sS fid)) (GForest.nextS inds s1S) := by
        rcases hd : dispatch (seriesLen (sS fid)) mp with _ | _ | _
        · have := (dispatch_eq_prenext _ _).mp hd
          rw [hcl] at this
          omega
        · rfl
        · rfl
      set σk := onceLoop i0 fs (k - (mp - 1)) (mp - 1) s3B with hσkdef
      have hNB1 : (GNode.mk i0 mp fs inds obs).onceS sB =
          onceLoop i0 fs (T - k) k σk := by
        rw [hBdef, hstop]
        unfold onceRange
        have ha : T - (mp - 1) = (k - (mp - 1)) + (T - k) := by omega
        rw [ha, onceLoop_split]
        have hb : mp - 1 + (k - (mp - 1)) = k := by omega
        rw [hb, ← hσkdef]
      have hpeel : onceLoop i0 fs (T - k) k σk =
          onceLoop i0 fs (T - (k + 1)) (k + 1)
            (upd σk i0 (seriesWrite k (fs.map (fun f => f k σk)) (σk i0))) := by
        have hc : T - k = 1 + (T - (k + 1)) := by omega
        rw [hc, onceLoop_split]
        simp only [onceLoop]
      have hσnone : ∀ l ∈ σk i0, l[k]? = some none := by
        rw [hσkdef]
        exact onceLoop_slot_none i0 fs _ _ k s3B (by omega)
          (hs3none k (by omega))
      have hσfr : ∀ j, j ≠ i0 → σk j = s3B j := by
        intro j hj
        rw [hσkdef]
        exact onceLoop_frame i0 fs _ _ s3B j hj
      have hσtr1 : truncS (k + 1) ((GNode.mk i0 mp fs inds obs).onceS sB i0) =
          seriesWrite k (fs.map (fun f => f k σk)) (truncS (k + 1) (σk i0)) := by
        rw [hNB1, hpeel, truncS_onceLoop_le i0 fs _ _ _ _ (le_refl (k + 1)),
          upd_self, truncS_seriesWrite_comm]
      have hσtr0 : truncS k ((GNode.mk i0 mp fs inds obs).onceS sB i0) =
          truncS k (σk i0) := by
        rw [hNB1]
        exact truncS_onceLoop_le i0 fs _ _ _ _ (by omega)
      have hσsucc : truncS (k + 1) (σk i0) =
          seriesForward (truncS k (σk i0)) :=
        truncS_succ_of_none_at _ k hσnone
      have hagree : ∀ f ∈ fs, f k (GForest.nextS inds s1S) = f k σk := by
        intro f hf
        apply hdepf f hf k
        intro m hm
        simp only [List.mem_cons] at hm
        rcases hm with hm0 | hm
        · rw [hm0, GForest.forest_nextS_frame inds _ fid hfidinds, hfeed1S, hfeed,
            hσfr fid hfid0, hfeed3B, truncS_truncS]
        · simp only [GNode.mainIds, List.mem_cons] at hm
          rcases hm with hm0 | hm'
          · rw [hm0, GForest.forest_nextS_frame inds _ i0 hi0inds, hs1Sown, hσsucc,
              hσtr0]
            apply truncS_of_lines_le
            intro l hl
            obtain ⟨l0, hl0, rfl⟩ := List.mem_map.mp hl
            obtain ⟨l1, hl1, rfl⟩ := List.mem_map.mp hl0
            simp only [List.length_append, List.length_take,
              List.length_singleton]
            omega
          · rw [hsimF m hm', truncS_truncS, hσfr m (hneq0 m hm'), hs3Bdef,
              GForest.obsForward_frame obs i0 _ m (hnobs m hm'), hs2Bdef]
      have hvals : fs.map (fun f => f k (GForest.nextS inds s1S)) =
          fs.map (fun f => f k σk) :=
        List.map_congr_left (fun f hf => hagree f hf)
      rcases hi with rfl | hi'
      · rw [hgoalN, GForest.forest_nextS_frame obs _ i hi0obs, hdisp]
        unfold nextWrite
        rw [upd_self, hcl]
        simp only [Nat.add_sub_cancel]
        rw [GForest.forest_nextS_frame inds s1S i hi0inds, hs1Sown, hvals, hσtr1,
          hσsucc, ← hσtr0]
      · rw [hgoalN, GForest.forest_nextS_frame obs _ i (hnobs i hi'), hdisp]
        unfold nextWrite
        rw [upd_other _ _ _ _ (hneq0 i hi'), hsimF i hi', hNBchild i hi',
          hs2Bdef]

/-- Simulation step over a forest, in registration order. -/
theorem GForest.forest_sim (F : GForest) (sS sB : Store) (k : Nat)
    (hnd : F.allIds.Nodup) (hfid : fid ∉ F.allIds) (hdep : F.HDep)
    (hk : k + 1 ≤ seriesLen (sB fid))
    (hfeed : sS fid = truncS (k + 1) (sB fid))
    (hmain : ∀ i ∈ F.mainIds, sS i = truncS k ((F.onceS sB) i))
    (hempty : ∀ i ∈ F.mainIds, (∀ l ∈ sB i, l = []) ∧ sB i ≠ []) :
    ∀ i ∈ F.mainIds, (F.nextS sS) i = truncS (k + 1) ((F.onceS sB) i) :=
  match F with
  | .nil => by
    intro i hi
    cases hi
  | .cons g gs => by
    simp only [GForest.allIds, List.mem_append] at hfid
    push_neg at hfid
    obtain ⟨hfg, hfgs⟩ := hfid
    have hndg := (List.nodup_append.mp hnd).1
    have hndgs := (List.nodup_append.mp hnd).2.1
    have hdisj := (List.nodup_append.mp hnd).2.2
    obtain ⟨hdepg, hdepgs⟩ := hdep
    have hmemg : ∀ i ∈ g.mainIds, i ∈ (GForest.cons g gs).mainIds := by
      intro i hi
      simp only [GForest.mainIds, List.mem_append]
      exact Or.inl hi
    have hmemgs : ∀ i ∈ gs.mainIds, i ∈ (GForest.cons g gs).mainIds := by
      intro i hi
      simp only [GForest.mainIds, List.mem_append]
      exact Or.inr hi
    have hgnotgs : ∀ i ∈ g.mainIds, i ∉ gs.allIds := by
      intro i hi hio
      exact hdisj (GNode.mainIds_subset g i hi) hio
    have hgsnotg : ∀ i ∈ gs.mainIds, i ∉ g.allIds := by
      intro i hi hio
      exact hdisj hio (GForest.forest_mainIds_subset gs i hi)
    have honce : (GForest.cons g gs).onceS sB = gs.onceS (g.onceS sB) := by
      simp only [GForest.onceS]
    have hnext : (GForest.cons g gs).nextS sS = gs.nextS (g.nextS sS) := by
      simp only [GForest.nextS]
    have hg := GNode.sim g sS sB k hndg hfg hdepg hk hfeed
      (by intro i hi
          rw [hmain i (hmemg i hi), honce,
            GForest.forest_onceS_frame gs _ i (hgnotgs i hi)])
      (fun i hi => hempty i (hmemg i hi))
    have hgs := GForest.forest_sim gs (g.nextS sS) (g.onceS sB) k hndgs hfgs hdepgs
      (by rw [GNode.onceS_frame g sB fid hfg]; exact hk)
      (by rw [GNode.nextS_frame g sS fid hfg, hfeed,
        GNode.onceS_frame g sB fid hfg])
      (by intro i hi
          rw [GNode.nextS_frame g sS i (hgsnotg i hi),
            hmain i (hmemgs i hi), honce])
      (by intro i hi
          rw [GNode.onceS_frame g sB i (hgsnotg i hi)]
          exact hempty i (hmemgs i hi))
    intro i hi
    simp only [GForest.mainIds, List.mem_append] at hi
    rcases hi with hi' | hi'
    · rw [hnext, GForest.forest_nextS_frame gs _ i (hgnotgs i hi'), hg i hi', honce,
        GForest.forest_onceS_frame gs _ i (hgnotgs i hi')]
    · rw [hnext, hgs i hi', honce]
end

theorem eq_truncS_zero (a : Series) : ∀ (b : Series), (∀ l ∈ a, l = []) →
    a.length = b.length → a = truncS 0 b := by
  induction a with
  | nil =>
    intro b _ hlen
    cases b with
    | nil => rfl
    | cons y ys => simp at hlen
  | cons x xs ih =>
    intro b ha hlen
    cases b with
    | nil => simp at hlen
    | cons y ys =>
      simp only [truncS, List.map_cons, List.take_zero]
      rw [ha x (List.mem_cons_self _ _)]
      congr 1
      have h2 := ih ys (fun l hl => ha l (List.mem_cons_of_mem _ hl))
        (by simpa using hlen)
      simpa [truncS] using h2

theorem seriesHead_truncS (m : Nat) (ser : Series) :
    seriesHead (truncS m ser) = (seriesHead ser).take m := by
  cases ser with
  | nil => simp [truncS, seriesHead]
  | cons l ls => simp [truncS, seriesHead]

/-- Whole-run simulation: stepping through the remaining bars from a state
that agrees with the batch result on the bars already seen ends in exact
agreement on every computational buffer. -/
theorem stepRun_sim (g : GNode) (bars : List Val) (sB : Store)
    (hnd : g.allIds.Nodup) (hfid : fid ∉ g.allIds) (hdep : g.HDep)
    (hBfeed : sB fid = [bars.map some])
    (hBempty : ∀ i ∈ g.mainIds, (∀ l ∈ sB i, l = []) ∧ sB i ≠ []) :
    ∀ (rest done : List Val) (sS : Store),
      bars = done ++ rest →
      sS fid = [done.map some] →
      (∀ i ∈ g.mainIds, sS i = truncS done.length ((g.onceS sB) i)) →
      ∀ i ∈ g.mainIds, stepRun g rest sS i = (g.onceS sB) i := by
  have hTlen : seriesLen (sB fid) = bars.length := by
    rw [hBfeed]
    simp [seriesLen]
  intro rest
  induction rest with
  | nil =>
    intro done sS hb hsf hsm i hi
    simp only [stepRun]
    rw [hsm i hi]
    apply truncS_of_lines_le
    intro l hl
    have hlen := GNode.onceS_main_len g sB hnd hfid
      (fun j hj => (hBempty j hj).1) i hi l hl
    rw [hlen, hTlen, hb]
    simp
  | cons b rest ih =>
    intro done sS hb hsf hsm i hi
    have hpf : (pushFeed sS b) fid = [((done ++ [b]).map some : Line)] := by
      unfold pushFeed
      rw [upd_self, hsf]
      simp
    have hpffeed : (pushFeed sS b) fid = truncS (done.length + 1) (sB fid) := by
      rw [hpf, hBfeed]
      simp only [truncS, List.map_cons, List.map_nil]
      congr 1
      rw [hb, ← List.map_take, List.take_append]
      simp
    have hmainp : ∀ j ∈ g.mainIds,
        (pushFeed sS b) j = truncS done.length ((g.onceS sB) j) := by
      intro j hj
      unfold pushFeed
      rw [upd_other _ _ _ _ (fun hjf => hfid (by
        rw [← hjf]
        exact GNode.mainIds_subset g j hj))]
      exact hsm j hj
    have hstep := GNode.sim g (pushFeed sS b) sB done.length hnd hfid hdep
      (by rw [hTlen, hb]; simp) hpffeed hmainp hBempty
    simp only [stepRun]
    exact ih (done ++ [b]) (g.nextS (pushFeed sS b))
      (by rw [hb]; simp)
      (by rw [GNode.nextS_frame g _ fid hfid, hpf])
      (by intro j hj
          have hl : (done ++ [b]).length = done.length + 1 := by simp
          rw [hl]
          exact hstep j hj)
      i hi

/-! ## Claims -/

/-- C4 (code bug, `NameError` instead of clock removal): whenever the clock
is among the registered indicators, `MetaLineIterator.dopostinit` reaches
source line 102, whose right-hand side `self._indicators[1:]` reads the
name `self` — unbound in this method, whose parameters are `cls` and
`_obj` — so construction raises `NameError`; the documented intent (remove
exactly the clock from the iteration list and mark the node) is never
reached.  Concretely: a node whose clock (id 5) is its first registered
indicator crashes. -/
theorem dopostinit_clock_child_raises :
    (∀ clock inds, MetaLineIterator.dopostinit clock inds =
        .error PyErr.nameError ↔ clock ∈ inds) ∧
      MetaLineIterator.dopostinit 5 [5, 7] = .error PyErr.nameError := by
  constructor
  · intro clock inds
    unfold MetaLineIterator.dopostinit
    by_cases hc : clock ∈ dedupFirst inds []
    · rw [if_pos hc]
      simp only [true_iff]
      exact ((mem_dedupFirst clock inds []).mp hc).1
    · rw [if_neg hc]
      constructor
      · intro h; cases h
      · intro hmem
        exact absurd ((mem_dedupFirst clock inds []).mpr
          ⟨hmem, List.not_mem_nil clock⟩) hc
  · rfl

/-- C5: after construction (`dopreinit` succeeded) and any sequence of
`addindicator` calls, a node's `_minperiod` is at least the `_minperiod` of
every registered non-observer child and at least the `_minperiod` of every
data (observers never raise it, indicators and the initial datas maximum
do). -/
theorem minperiod_monotone (owner : Option Nat) (args : List CArg)
    (p : PreInit) (hok : MetaLineIterator.dopreinit owner args = .ok p)
    (cs : List Child) :
    minperiodInv (cs.foldl LineIterator.addindicator (LIState.ofPreInit p)) := by
  apply foldl_addindicator_preserves
  have hbase : minperiodInv (LIState.ofPreInit p) := by
    unfold MetaLineIterator.dopreinit at hok
    rcases hs : args.filterMap (fun a => match a with
      | .stream m => some m
      | .plain => none) with _ | ⟨s, ss⟩ <;> rw [hs] at hok
    · cases owner with
      | none => cases hok
      | some m =>
        cases hok
        constructor
        · intro x hx; cases hx
        · intro x hx
          rcases List.mem_singleton.mp hx with rfl
          exact le_refl _
    · cases hok
      constructor
      · intro x hx; cases hx
      · intro x hx
        exact foldl_max_le_of_mem _ 0 x hx
  exact hbase

/-- Witness for C5 at a concrete construction: two stream args of
minperiods 2 and 3 and two later registrations (an indicator of minperiod
5, an observer of minperiod 9). -/
theorem minperiod_monotone_witness :
    minperiodInv (([⟨false, 5⟩, ⟨true, 9⟩] : List Child).foldl
      LineIterator.addindicator
      (LIState.ofPreInit ⟨2, [2, 3], 3⟩)) :=
  minperiod_monotone none [CArg.stream 2, CArg.plain, CArg.stream 3]
    ⟨2, [2, 3], 3⟩ (by rfl) [⟨false, 5⟩, ⟨true, 9⟩]

/-- C8: `MetaLineIterator.dopreinit` fails — the spec's `NoClockError`,
raised concretely by line 46 evaluating `None._minperiod` — exactly when no
constructor argument is a `LineSeries` stream and the owner lookup found no
enclosing node; and every successful construction yields a node whose
clock is its first data, never a silent clock-less node. -/
theorem dopreinit_noclock (owner : Option Nat) (args : List CArg) :
    ((∃ e, MetaLineIterator.dopreinit owner args = .error e) ↔
      ((∀ a ∈ args, a = CArg.plain) ∧ owner = none)) ∧
      (∀ p, MetaLineIterator.dopreinit owner args = .ok p →
        p.datas.head? = some p.clock) := by
  have hchar : (args.filterMap (fun a => match a with
      | .stream m => some m
      | .plain => none)) = [] ↔ ∀ a ∈ args, a = CArg.plain := by
    rw [List.filterMap_eq_nil_iff]
    constructor
    · intro h a ha
      cases a with
      | stream m => cases h _ ha
      | plain => rfl
    · intro h a ha
      rw [h a ha]
  rcases hs : args.filterMap (fun a => match a with
    | .stream m => some m
    | .plain => none) with _ | ⟨s, ss⟩
  · cases owner with
    | none =>
      simp only [MetaLineIterator.dopreinit, hs]
      refine ⟨⟨fun _ => ⟨hchar.mp hs, by trivial⟩, fun _ => ⟨.attributeError, by trivial⟩⟩, ?_⟩
      intro p hp
      cases hp
    | some m =>
      simp only [MetaLineIterator.dopreinit, hs]
      refine ⟨⟨?_, ?_⟩, ?_⟩
      · rintro ⟨e, he⟩
        cases he
      · rintro ⟨_, hno⟩
        cases hno
      · intro p hp
        cases hp
        rfl
  · simp only [MetaLineIterator.dopreinit, hs]
    refine ⟨⟨?_, ?_⟩, ?_⟩
    · rintro ⟨e, he⟩
      cases he
    · rintro ⟨hall, _⟩
      have hmem : s ∈ args.filterMap (fun a => match a with
        | .stream m => some m
        | .plain => none) := by
        rw [hs]
        exact List.mem_cons_self _ _
      obtain ⟨a, ha, hfa⟩ := List.mem_filterMap.mp hmem
      rw [hall a ha] at hfa
      cases hfa
    · intro p hp
      cases hp
      rfl

/-- C9: every token list accepted by the VChart adapter's `_loadline`
(a successful load of one record) writes exactly one new value into each of
the seven declared lines — datetime, open, high, low, close, volume,
openinterest, in that order — and returns `True`: no line is written twice
and none is skipped. -/
theorem loadline_writes_all_lines (pf : Token → Option Token)
    (toks : List Token) (ws : List (FeedLine × FeedVal))
    (h : VChartCSVData.loadline pf toks = some ws) :
    ws.map Prod.fst =
      [.datetime, .open_, .high, .low, .close, .volume, .openinterest] := by
  unfold VChartCSVData.loadline at h
  repeat' split at h
  all_goals try exact (Option.noConfusion h)
  injection h with h
  subst h
  rfl

/-- Witness for C9: a concrete accepted VChart record (ticker, session,
date 20060102, time 93005, five float fields). -/
theorem loadline_writes_all_lines_witness :
    VChartCSVData.loadline (fun s => some s)
        [['T'], ['D'], ['2', '0', '0', '6', '0', '1', '0', '2'],
          ['9', '3', '0', '0', '5'], ['1', '0'], ['1', '1'], ['9'],
          ['1', '0', '.', '5'], ['1', '0', '0'], ['5', '0']] =
      some [(.datetime, .dt 2006 1 2 9 30 5), (.open_, .fl ['1', '0']),
        (.high, .fl ['1', '1']), (.low, .fl ['9']),
        (.close, .fl ['1', '0', '.', '5']), (.volume, .fl ['1', '0', '0']),
        (.openinterest, .fl ['5', '0'])] ∧
      ([(FeedLine.datetime, FeedVal.dt 2006 1 2 9 30 5),
        (.open_, .fl ['1', '0']), (.high, .fl ['1', '1']), (.low, .fl ['9']),
        (.close, .fl ['1', '0', '.', '5']), (.volume, .fl ['1', '0', '0']),
        (.openinterest, .fl ['5', '0'])].map Prod.fst) =
        [FeedLine.datetime, .open_, .high, .low, .close, .volume,
          .openinterest] :=
  ⟨by decide, loadline_writes_all_lines (fun s => some s)
    [['T'], ['D'], ['2', '0', '0', '6', '0', '1', '0', '2'],
      ['9', '3', '0', '0', '5'], ['1', '0'], ['1', '1'], ['9'],
      ['1', '0', '.', '5'], ['1', '0', '0'], ['5', '0']]
    [(FeedLine.datetime, FeedVal.dt 2006 1 2 9 30 5),
      (.open_, .fl ['1', '0']), (.high, .fl ['1', '1']), (.low, .fl ['9']),
      (.close, .fl ['1', '0', '.', '5']), (.volume, .fl ['1', '0', '0']),
      (.openinterest, .fl ['5', '0'])] (by decide)⟩

theorem meanf_depends : DependsOn meanf (fid :: GNode.mainIds rootMean) := by
  intro j s t h
  have hf := h fid (List.mem_cons_self _ _)
  have h2 : seriesHead (truncS (j + 1) (s fid)) =
      seriesHead (truncS (j + 1) (t fid)) := by rw [hf]
  rw [seriesHead_truncS, seriesHead_truncS] at h2
  unfold meanf
  rw [h2]

/-- C1 counterexample: on the graph `rootCE` — a root with the registered
observer `obsCE` whose `next` writes a value — a one-bar run in step mode
fills the observer's line while `_once` leaves it unwritten: final buffers
are not identical for every Line of every node. -/
theorem step_batch_observer_counterexample :
    2 ∈ rootCE.allIds ∧
      stepRun rootCE [0] sOne 2 ≠ batchRun rootCE [0] sOne 2 :=
  ⟨by decide, by decide⟩

/-- C1 (amended): for every well-formed graph whose computational nodes
read only the feed and their own indicator subtrees, and only backwards in
time, a step-mode run (`_next` once per available clock bar on the root)
and a single `_once` call over the same stream produce bar-for-bar
identical final buffers for every Line of every node outside observer
subtrees.  Observer buffers are excluded: `_once` only pre-sizes observers
(never runs their callbacks), so an observer that computes in `next`
diverges between the modes. -/
theorem step_batch_equiv (g : GNode) (bars : List Val) (s0 : Store)
    (hwf : g.WF) (hdep : g.HDep) (hfeed : s0 fid = [[]])
    (hinit : ∀ i ∈ g.mainIds, (∀ l ∈ s0 i, l = []) ∧ s0 i ≠ []) :
    ∀ i ∈ g.mainIds, stepRun g bars s0 i = batchRun g bars s0 i := by
  obtain ⟨hnd, hfid⟩ := hwf
  have hmainfid : ∀ i ∈ g.mainIds, i ≠ fid := by
    intro i hi hif
    exact hfid (by rw [← hif]; exact GNode.mainIds_subset g i hi)
  have hBfeed : (loadFeed s0 bars) fid = [bars.map some] := by
    unfold loadFeed
    rw [upd_self, hfeed]
    simp
  have hBempty : ∀ i ∈ g.mainIds,
      (∀ l ∈ (loadFeed s0 bars) i, l = []) ∧ (loadFeed s0 bars) i ≠ [] := by
    intro i hi
    unfold loadFeed
    rw [upd_other _ _ _ _ (hmainfid i hi)]
    exact hinit i hi
  have h0 : ∀ i ∈ g.mainIds,
      s0 i = truncS 0 ((g.onceS (loadFeed s0 bars)) i) := by
    intro i hi
    apply eq_truncS_zero _ _ (hinit i hi).1
    rw [GNode.onceS_count]
    unfold loadFeed
    rw [upd_other _ _ _ _ (hmainfid i hi)]
  intro i hi
  unfold batchRun
  exact stepRun_sim g bars (loadFeed s0 bars) hnd hfid hdep hBfeed hBempty
    bars [] s0 rfl (by rw [hfeed]; rfl) (fun j hj => h0 j hj) i hi

/-- Witness for the amended C1: the spec's rolling-mean scenario — clock
`[10, 11, 12, 13, 14]`, a three-bar mean with `minPeriod = 3` — agrees
between the modes and produces `[_, _, 11, 12, 13]`. -/
theorem step_batch_equiv_witness :
    (∀ i ∈ rootMean.mainIds,
      stepRun rootMean [10, 11, 12, 13, 14] sOne i =
        batchRun rootMean [10, 11, 12, 13, 14] sOne i) ∧
      stepRun rootMean [10, 11, 12, 13, 14] sOne 1 =
        [[none, none, some 11, some 12, some 13]] :=
  ⟨step_batch_equiv rootMean [10, 11, 12, 13, 14] sOne ⟨by decide, by decide⟩
      ⟨fun f hf => by
        rcases List.mem_singleton.mp hf with rfl
        exact meanf_depends, trivial⟩
      (by decide) (by decide),
    by decide⟩

/-- C2: each `_next` call dispatches exactly one lifecycle callback, chosen
by the clock's current length `L` against the node's `_minperiod = M`:
`prenext` iff `L < M`, `nextstart` iff `L = M`, `next` iff `L > M`;
`nextstart` by default delegates to `next`; and over a step run the root
dispatches one callback per bar (`dispatch (t+1) M` at bar `t`), so
`nextstart` fires exactly once whenever the run reaches `M` bars
(`1 ≤ M ≤ T`), never more than once. -/
theorem warmup_dispatch (i mp : Nat) (fs : List (Nat → Store → Val))
    (inds obs : GForest) (bars : List Val) (s : Store)
    (hwf : (GNode.mk i mp fs inds obs).WF) (hfeed : s fid ≠ [])
    (hlen : seriesLen (s fid) = 0) :
    (∀ L M, (dispatch L M = .prenext ↔ L < M) ∧
      (dispatch L M = .nextstart ↔ L = M) ∧
      (dispatch L M = .next ↔ M < L)) ∧
      applyCb .nextstart = applyCb .next ∧
      rootCallbacks (.mk i mp fs inds obs) bars s =
        (List.range bars.length).map (fun t => dispatch (t + 1) mp) ∧
      (rootCallbacks (.mk i mp fs inds obs) bars s).count .nextstart =
        (if 1 ≤ mp ∧ mp ≤ bars.length then 1 else 0) := by
  obtain ⟨hnodup, hfid⟩ := hwf
  simp only [GNode.allIds, List.nodup_cons, List.mem_append] at hnodup
  push_neg at hnodup
  obtain ⟨⟨hinds, hobs⟩, -⟩ := hnodup
  have hmain : rootCallbacks (.mk i mp fs inds obs) bars s =
      (List.range bars.length).map (fun t => dispatch (t + 1) mp) := by
    have h := stepRunTr_root_callbacks i mp fs inds obs bars s hinds hobs
      hfid hfeed
    rw [hlen] at h
    simp only [rootCallbacks, GNode.gid]
    rw [h]
    apply List.map_congr_left
    intro t _
    congr 2
    omega
  refine ⟨fun L M => ⟨dispatch_eq_prenext L M, dispatch_eq_nextstart L M,
    dispatch_eq_next L M⟩, ?_, hmain, ?_⟩
  · funext a b c d
    rfl
  · rw [hmain, count_nextstart_range]

/-- Witness for C2: a root of `_minperiod = 2` stepped over three bars —
its run dispatches `prenext`, `nextstart`, `next`, counting `nextstart`
exactly once. -/
theorem warmup_dispatch_witness :
    (∀ L M, (dispatch L M = .prenext ↔ L < M) ∧
      (dispatch L M = .nextstart ↔ L = M) ∧
      (dispatch L M = .next ↔ M < L)) ∧
      applyCb .nextstart = applyCb .next ∧
      rootCallbacks (.mk 1 2 [] .nil .nil) [3, 4, 5] (fun _ => [[]]) =
        (List.range ([3, 4, 5] : List Val).length).map
          (fun t => dispatch (t + 1) 2) ∧
      (rootCallbacks (.mk 1 2 [] .nil .nil) [3, 4, 5]
          (fun _ => [[]])).count .nextstart =
        (if 1 ≤ 2 ∧ 2 ≤ ([3, 4, 5] : List Val).length then 1 else 0) :=
  warmup_dispatch 1 2 [] .nil .nil [3, 4, 5] (fun _ => [[]])
    ⟨by decide, by decide⟩ (by decide) (by decide)

/-- C3: one `_next` call on a node with registered children `[c1, c2]` and
observer `o` performs, in order and with no interleaving: the node's own
optional forward, the complete step of `c1`, the complete step of `c2`, the
node's own notification delivery and single lifecycle dispatch, and finally
the complete step of `o` — each stage running on the store exactly as the
previous stage left it. -/
theorem next_child_ordering (i mp : Nat) (fs : List (Nat → Store → Val))
    (c1 c2 o : GNode) (s : Store) :
    GNode.nextTr (.mk i mp fs (.cons c1 (.cons c2 .nil)) (.cons o .nil)) s =
      (if seriesLen (s fid) ≠ seriesLen (s i) then [Event.forward i] else []) ++
        c1.nextTr (if seriesLen (s fid) ≠ seriesLen (s i)
          then upd s i (seriesForward (s i)) else s) ++
        c2.nextTr (c1.nextS (if seriesLen (s fid) ≠ seriesLen (s i)
          then upd s i (seriesForward (s i)) else s)) ++
        [Event.notify i, Event.callback i (dispatch (seriesLen (s fid)) mp)] ++
        o.nextTr (applyCb (dispatch (seriesLen (s fid)) mp) i fs
          (seriesLen (s fid))
          (c2.nextS (c1.nextS (if seriesLen (s fid) ≠ seriesLen (s i)
            then upd s i (seriesForward (s i)) else s)))) := by
  simp only [GNode.nextTr, GForest.nextTr, GForest.nextS, List.append_nil,
    List.append_assoc]

/-- C6: a `_next` call compares the clock's current length with the node's
own length and forwards its own storage exactly when the clock grew past
it, so that after the call the node's output length equals the clock's
length.  `hgrow` is the step-driver protocol: the clock gains at most one
bar between consecutive `_next` calls on the node. -/
theorem next_keeps_alignment (i mp : Nat) (fs : List (Nat → Store → Val))
    (inds obs : GForest) (s : Store)
    (hinds : i ∉ inds.allIds) (hobs : i ∉ obs.allIds) (hne : s i ≠ [])
    (hgrow : seriesLen (s fid) = seriesLen (s i) ∨
      seriesLen (s fid) = seriesLen (s i) + 1) :
    seriesLen ((GNode.mk i mp fs inds obs).nextS s i) = seriesLen (s fid) ∧
      (Event.forward i ∈ (GNode.mk i mp fs inds obs).nextTr s ↔
        seriesLen (s fid) = seriesLen (s i) + 1) := by
  have hfwdlen : seriesLen (seriesForward (s i)) = seriesLen (s i) + 1 := by
    rcases hx : s i with _ | ⟨l, ls⟩
    · exact absurd hx hne
    · simp [seriesForward, seriesLen]
  constructor
  · simp only [GNode.nextS]
    rw [GForest.forest_nextS_frame obs _ _ hobs, seriesLen_applyCb,
      GForest.forest_nextS_frame inds _ _ hinds]
    rcases hgrow with heq | heq
    · rw [if_neg (fun h => h heq)]
      exact heq.symm
    · rw [if_pos (by rw [heq]; exact (Nat.succ_ne_self _)), upd_self, hfwdlen]
      exact heq.symm
  · simp only [GNode.nextTr, List.mem_append, List.mem_cons]
    by_cases hc : seriesLen (s fid) ≠ seriesLen (s i)
    · rw [if_pos hc]
      constructor
      · intro _
        rcases hgrow with heq | heq
        · exact absurd heq hc
        · exact heq
      · intro _
        exact Or.inl (Or.inl (Or.inl (List.mem_cons_self _ _)))
    · rw [if_neg hc]
      push_neg at hc
      constructor
      · rintro (((hf | hind) | (h1 | h2 | h0)) | hobs')
        · cases hf
        · exact absurd (GForest.forest_nextTr_ids inds _ _ hind i (Or.inl rfl)) hinds
        · cases h1
        · cases h2
        · cases h0
        · exact absurd (GForest.forest_nextTr_ids obs _ _ hobs' i (Or.inl rfl)) hobs
      · intro habs
        rw [hc] at habs
        exact absurd habs (Nat.succ_ne_self _).symm

/-- Witness for C6: a fresh one-line node on a feed holding one bar (the
clock just grew past the node). -/
theorem next_keeps_alignment_witness :
    (seriesLen ((GNode.mk 1 1 [fun _ _ => 7] .nil .nil).nextS
        (fun j => if j = 0 then [[some 5]] else [[]]) 1) =
      seriesLen ((fun j => if j = 0 then [[some 5]] else [[]] : Store) fid)) ∧
      (Event.forward 1 ∈ (GNode.mk 1 1 [fun _ _ => 7] .nil .nil).nextTr
          (fun j => if j = 0 then [[some 5]] else [[]]) ↔
        seriesLen ((fun j => if j = 0 then [[some 5]] else [[]] : Store) fid) =
          seriesLen ((fun j => if j = 0 then [[some 5]] else [[]] : Store) 1) + 1) :=
  next_keeps_alignment 1 1 [fun _ _ => 7] .nil .nil
    (fun j => if j = 0 then [[some 5]] else [[]])
    (by decide) (by decide) (by decide) (Or.inr (by decide))

/-- C7: in every `_once` call, after pre-sizing and rewinding, the node
calls `preonce` over the warm-up range `(0, M-1)` and then `once` over the
steady-state range `(M-1, T)`, `T` being the clock's `buflen` (which is
also the node's own eventual length), and only after both does it resolve
the declared bindings of its own lines; observers are only pre-sized with
`forward` in batch mode, never computed. -/
theorem once_pipeline (i mp : Nat) (fs : List (Nat → Store → Val))
    (inds obs : GForest) (s : Store)
    (hwf : (GNode.mk i mp fs inds obs).WF)
    (hempty : ∀ l ∈ s i, l = []) (hne : s i ≠ []) :
    (∃ A, (GNode.mk i mp fs inds obs).onceTr s =
        A ++ [Event.preonce i 0 (mp - 1),
          Event.once i (mp - 1) (seriesLen (s fid))] ++
          (List.range (s i).length).map (Event.oncebinding i) ∧
        ∀ e ∈ A, computeId e ≠ some i ∧ bindId e ≠ some i) ∧
      (∀ e ∈ (GNode.mk i mp fs inds obs).onceTr s, ∀ j ∈ GForest.allIds obs,
        computeId e ≠ some j) ∧
      (∀ j ∈ GForest.topIds obs, ∃ sz,
        Event.forwardN j sz ∈ (GNode.mk i mp fs inds obs).onceTr s) := by
  obtain ⟨hnodup, hfidall⟩ := hwf
  simp only [GNode.allIds, List.nodup_cons, List.mem_append] at hnodup
  push_neg at hnodup
  obtain ⟨⟨hinds, hobs⟩, hnodup'⟩ := hnodup
  have hdisj := (List.nodup_append.mp hnodup').2.2
  have hs3own : GForest.obsForward obs i
      (GForest.onceS inds (upd s i (seriesForwardN (seriesLen (s fid)) (s i)))) i =
      seriesForwardN (seriesLen (s fid)) (s i) := by
    rw [GForest.obsForward_frame obs i _ i hobs,
      GForest.forest_onceS_frame inds _ i hinds, upd_self]
  have hstop : seriesLen (GForest.obsForward obs i
      (GForest.onceS inds (upd s i (seriesForwardN (seriesLen (s fid)) (s i)))) i) =
      seriesLen (s fid) := by
    rw [hs3own]
    rcases hx : s i with _ | ⟨l, ls⟩
    · exact absurd hx hne
    · have hl : l = [] := hempty l (by rw [hx]; exact List.mem_cons_self _ _)
      simp [seriesForwardN, seriesLen, hl]
  have hcount : (onceRange i fs (mp - 1)
      (seriesLen (GForest.obsForward obs i (GForest.onceS inds
        (upd s i (seriesForwardN (seriesLen (s fid)) (s i)))) i))
      (GForest.obsForward obs i (GForest.onceS inds
        (upd s i (seriesForwardN (seriesLen (s fid)) (s i))))) i).length =
      (s i).length := by
    unfold onceRange
    rw [onceLoop_own_length, hs3own]
    simp [seriesForwardN]
  refine ⟨⟨Event.forwardN i (seriesLen (s fid)) ::
      (GForest.onceTr inds (upd s i (seriesForwardN (seriesLen (s fid)) (s i))) ++
        GForest.obsFwdTr obs i (GForest.onceS inds
          (upd s i (seriesForwardN (seriesLen (s fid)) (s i)))) ++
        [Event.home fid] ++ (GForest.topIds inds).map Event.home ++
        (GForest.topIds obs).map Event.home ++ [Event.home i]), ?_, ?_⟩, ?_, ?_⟩
  · simp only [GNode.onceTr]
    rw [hstop]
    rw [hstop] at hcount
    rw [hcount]
    simp [List.append_assoc]
  · intro e he
    simp only [List.mem_cons, List.mem_append, List.mem_map,
      List.mem_singleton] at he
    rcases he with rfl | he
    · exact ⟨by simp [computeId], by simp [bindId]⟩
    rcases he with ((((hind | hobsf) | (rfl | h0)) | hhomei) | hhomeo) | (rfl | h0)
    · constructor
      · intro hc
        exact hinds (GForest.forest_mainIds_subset inds i
          (GForest.forest_onceTr_main_ids inds _ e hind i (Or.inl hc)))
      · intro hc
        exact hinds (GForest.forest_mainIds_subset inds i
          (GForest.forest_onceTr_main_ids inds _ e hind i (Or.inr hc)))
    · obtain ⟨o, sz, rfl⟩ := obsFwdTr_shape obs i _ e hobsf
      exact ⟨by simp [computeId], by simp [bindId]⟩
    · exact ⟨by simp [computeId], by simp [bindId]⟩
    · cases h0
    · obtain ⟨a, -, rfl⟩ := hhomei
      exact ⟨by simp [computeId], by simp [bindId]⟩
    · obtain ⟨a, -, rfl⟩ := hhomeo
      exact ⟨by simp [computeId], by simp [bindId]⟩
    · exact ⟨by simp [computeId], by simp [bindId]⟩
    · cases h0
  · intro e he j hjobs hc
    have hmem : j ∈ (GNode.mk i mp fs inds obs).mainIds :=
      GNode.onceTr_main_ids _ _ e he j (Or.inl hc)
    simp only [GNode.mainIds, List.mem_cons] at hmem
    rcases hmem with rfl | hmem'
    · exact hobs hjobs
    · exact hdisj (GForest.forest_mainIds_subset inds j hmem') hjobs
  · intro j hj
    obtain ⟨sz, hsz⟩ := obsFwdTr_covers obs i
      (GForest.onceS inds (upd s i (seriesForwardN (seriesLen (s fid)) (s i)))) j hj
    refine ⟨sz, ?_⟩
    simp only [GNode.onceTr, List.mem_cons, List.mem_append]
    exact Or.inr (Or.inl (Or.inl (Or.inl (Or.inl (Or.inl (Or.inl (Or.inr hsz)))))))

/-- Witness for C7: the concrete two-level graph `wInds7`/`wObs7` over the
two-bar feed `wS7`. -/
theorem once_pipeline_witness :
    (∃ A, (GNode.mk 1 2 [] wInds7 wObs7).onceTr wS7 =
        A ++ [Event.preonce 1 0 (2 - 1),
          Event.once 1 (2 - 1) (seriesLen (wS7 fid))] ++
          (List.range (wS7 1).length).map (Event.oncebinding 1) ∧
        ∀ e ∈ A, computeId e ≠ some 1 ∧ bindId e ≠ some 1) ∧
      (∀ e ∈ (GNode.mk 1 2 [] wInds7 wObs7).onceTr wS7,
        ∀ j ∈ GForest.allIds wObs7, computeId e ≠ some j) ∧
      (∀ j ∈ GForest.topIds wObs7, ∃ sz,
        Event.forwardN j sz ∈ (GNode.mk 1 2 [] wInds7 wObs7).onceTr wS7) :=
  once_pipeline 1 2 [] wInds7 wObs7 wS7 ⟨by decide, by decide⟩
    (by decide) (by decide)

/-- C10: `bindlines` with both arguments omitted (Python `None`, falsy) on
a node with at least one line whose owner has at least one line attaches
exactly one binding — own line 0 bound to the owner's line 0 — and returns
`self` (the node, carrying just that one new binding; every other line of
both sides acquires none). -/
theorem bindlines_default (node : BindNode) (ownerLines : Nat)
    (h1 : 1 ≤ node.nlines) (h2 : 1 ≤ ownerLines) :
    LineIterator.bindlines node ownerLines .noneV .noneV =
      .ok { node with bindings := node.bindings ++ [(0, 0)] } := by
  have hz : LineIterator.bindlines node ownerLines .noneV .noneV =
      bindStep node ownerLines [(0, 0)] := rfl
  rw [hz]
  unfold bindStep
  rw [if_pos ⟨h1, h2⟩]
  rfl

/-- Witness for C10: a one-line node with a one-line owner. -/
theorem bindlines_default_witness :
    LineIterator.bindlines ⟨1, []⟩ 1 .noneV .noneV = .ok ⟨1, [(0, 0)]⟩ :=
  bindlines_default ⟨1, []⟩ 1 (by decide) (by decide)

end Backtrader
